import Mathlib

/-!
A shallow embedding of `git-patchdeps.py`: a unified-diff parser together
with a line-provenance dependency analyzer, plus theorems checking the
specification's claims against this embedding.

Text is modelled as `List Char`; Python integers as `Int`; fallible code
returns `Except Err`.  Python `assert` statements and runtime crashes
(NameError / AttributeError / TypeError) are modelled as distinguished
error values, and `sys.exit(1)` on a consistency failure is modelled as
`Err.consistency` carrying the exact text written to stderr.
-/

namespace Patchdeps

/-- Text (file names, line contents, messages) as a list of characters. -/
abbrev Str := List Char

/-- The character list of a string literal. -/
def str (s : String) : Str := s.data

/-- Value of a nonempty run of decimal digits (regex group `\d+`). -/
def digitsToNat (ds : Str) : Nat :=
  ds.foldl (fun acc c => 10 * acc + (c.toNat - 48)) 0

/-- Parse a leading nonempty digit run, returning its value and the rest. -/
def parseNat? (s : Str) : Option (Nat × Str) :=
  let ds := s.takeWhile Char.isDigit
  if ds = [] then none else some (digitsToNat ds, s.drop ds.length)

/-- `RE_SOURCE_FILENAME`: `^--- (?P<filename>[^\t]+)`. -/
def matchSource (line : Str) : Option Str :=
  if (str "--- ").isPrefixOf line then
    let fn := (line.drop 4).takeWhile (fun c => c ≠ '\t')
    if fn = [] then none else some fn
  else none

/-- `RE_TARGET_FILENAME`: `^\+\+\+ (?P<filename>[^\t]+)`. -/
def matchTarget (line : Str) : Option Str :=
  if (str "+++ ").isPrefixOf line then
    let fn := (line.drop 4).takeWhile (fun c => c ≠ '\t')
    if fn = [] then none else some fn
  else none

/-- The optional `(?:,(\d+))?` group of the hunk header: if a comma follows,
a digit run must follow it (otherwise the following literal space cannot
match the comma and the whole regex fails). -/
def matchOptLen (s : Str) : Option (Option Nat × Str) :=
  match s with
  | ',' :: rest =>
    match parseNat? rest with
    | some (n, rest2) => some (some n, rest2)
    | none => none
  | _ => some (none, s)

/-- `RE_HUNK_HEADER`: `^@@ -(\d+)(?:,(\d+))? \+(\d+)(?:,(\d+))?\ @@`. -/
def matchHunkHeader (line : Str) : Option (Nat × Option Nat × Nat × Option Nat) :=
  if (str "@@ -").isPrefixOf line then
    match parseNat? (line.drop 4) with
    | none => none
    | some (s1, r1) =>
      match matchOptLen r1 with
      | none => none
      | some (l1, r2) =>
        if (str " +").isPrefixOf r2 then
          match parseNat? (r2.drop 2) with
          | none => none
          | some (s2, r3) =>
            match matchOptLen r3 with
            | none => none
            | some (l2, r4) =>
              if (str " @@").isPrefixOf r4 then some (s1, l1, s2, l2) else none
        else none
  else none

/-- Errors: `UnidiffParseException`, Python runtime crashes (unbound name /
`None` attribute access), failed `assert` statements, and the fatal
consistency failure (which carries the text written to stderr). -/
inductive Err where
  | parse : Err
  | crash : Err
  | assertFail : Err
  | consistency : Str → Err
deriving Repr, DecidableEq

/-- A single line from a patch hunk (class `Change`).  The absolute line
numbers are computed at construction from the hunk header starts, exactly
as in `Change.__init__`. -/
structure Change where
  action : Char
  source_lineno_rel : Int
  source_line : Option Str
  target_lineno_rel : Int
  target_line : Option Str
  source_lineno_abs : Int
  target_lineno_abs : Int
deriving Repr, DecidableEq

/-- One modified block of a file (class `Hunk`). -/
structure Hunk where
  source_start : Int
  source_length : Int
  target_start : Int
  target_length : Int
  changes : List Change
  to_parse : Int × Int
deriving Repr, DecidableEq

/-- `Hunk.__init__`. -/
def Hunk.init (ss sl ts tl : Int) : Hunk :=
  { source_start := ss, source_length := sl, target_start := ts, target_length := tl,
    changes := [], to_parse := (sl, tl) }

/-- `Hunk.is_valid`: header data matches the entered line info. -/
def Hunk.is_valid (h : Hunk) : Bool := h.to_parse == (0, 0)

/-- Second half of `append_change`: decrement the target-side counter for
a {context, add} change, failing when it drops below zero. -/
def Hunk.appendTargetCount (h : Hunk) (c : Change) : Except Err Hunk :=
  if c.action = ' ' ∨ c.action = '+' then
    if h.to_parse.2 - 1 < 0 then Except.error Err.parse
    else Except.ok { h with to_parse := (h.to_parse.1, h.to_parse.2 - 1) }
  else Except.ok h

/-- `Hunk.append_change`: append a change and update the two remaining-line
counters in sequence, failing when one drops below zero. -/
def Hunk.append_change (h : Hunk) (c : Change) : Except Err Hunk :=
  let h1 := { h with changes := h.changes ++ [c] }
  if c.action = ' ' ∨ c.action = '-' then
    if h1.to_parse.1 - 1 < 0 then Except.error Err.parse
    else Hunk.appendTargetCount { h1 with to_parse := (h1.to_parse.1 - 1, h1.to_parse.2) } c
  else Hunk.appendTargetCount h1 c

/-- The body of `_parse_hunk`: consume diff lines into the hunk until both
declared counts are exhausted (`is_valid`), an unrecognized marker is hit
(parse failure), or the input ends (the hunk is returned as-is). -/
def parseHunkAux : List Str → Hunk → Int → Int → Except Err (Hunk × List Str)
  | [], hunk, _, _ => .ok (hunk, [])
  | line :: rest, hunk, source_lineno, target_lineno =>
    match line with
    | [] => .error Err.parse
    | c :: content =>
      if c = '-' ∨ c = ' ' ∨ c = '+' ∨ c = '\\' then
        let sl : Option Str := if c = '-' ∨ c = ' ' then some content else none
        let tl : Option Str := if c = '+' ∨ c = ' ' then some content else none
        let ch : Change :=
          { action := c, source_lineno_rel := source_lineno, source_line := sl,
            target_lineno_rel := target_lineno, target_line := tl,
            source_lineno_abs := hunk.source_start + source_lineno,
            target_lineno_abs := hunk.target_start + target_lineno }
        let source_lineno2 := if c = '-' ∨ c = ' ' then source_lineno + 1 else source_lineno
        let target_lineno2 := if c = '+' ∨ c = ' ' then target_lineno + 1 else target_lineno
        match hunk.append_change ch with
        | .error e => .error e
        | .ok h2 =>
          if h2.is_valid then .ok (h2, rest)
          else parseHunkAux rest h2 source_lineno2 target_lineno2
      else .error Err.parse

/-- `_parse_hunk` leaves a suffix of its input unconsumed. -/
theorem parseHunkAux_rest_length :
    ∀ (ls : List Str) (h : Hunk) (a b : Int) (h2 : Hunk) (rem : List Str),
      parseHunkAux ls h a b = .ok (h2, rem) → rem.length ≤ ls.length := by
  intro ls
  induction ls with
  | nil =>
    intro h a b h2 rem heq
    simp only [parseHunkAux] at heq
    cases heq
    simp
  | cons line rest ih =>
    intro h a b h2 rem heq
    simp only [parseHunkAux] at heq
    cases line with
    | nil => cases heq
    | cons c content =>
      simp only at heq
      split at heq
      · split at heq
        · cases heq
        · split at heq
          · cases heq
            simp
          · exact le_trans (ih _ _ _ _ _ heq) (by simp)
      · cases heq

/-- Data from a patched file (class `PatchedFile`). -/
structure PatchedFile where
  source_file : Str
  target_file : Str
  path : Str
  hunks : List Hunk
deriving Repr, DecidableEq

/-- `PatchedFile.__init__`: record both paths and resolve the logical path. -/
def mkPatchedFile (source target : Str) : PatchedFile :=
  let path :=
    if (str "a/").isPrefixOf source ∧ (str "b/").isPrefixOf target then source.drop 2
    else if (str "a/").isPrefixOf source ∧ target = str "/dev/null" then source.drop 2
    else if (str "b/").isPrefixOf target ∧ source = str "/dev/null" then target.drop 2
    else source
  { source_file := source, target_file := target, path := path, hunks := [] }

/-- Append a hunk to the current (last) patched file. -/
def appendHunkToLast : List PatchedFile → Hunk → List PatchedFile
  | [], _ => []
  | [f], h => [{ f with hunks := f.hunks ++ [h] }]
  | f :: fs, h => f :: appendHunkToLast fs h

/-- The loop of `parse_diff`: recognize source headers, target headers and
hunk headers; any other line outside a hunk body is skipped.  A target
header with no source header ever seen, or a hunk header with no current
file, crashes (NameError / AttributeError on `None`).  The recursion is
driven by a fuel counting the remaining input lines (`parse_diff` passes
`lines.length`; every step consumes at least one line, by
`parseHunkAux_rest_length`, so the fuel never runs out before the input
does and the fuel-exhausted arm is unreachable). -/
def parseDiffAux : Nat → List Str → Option Str → List PatchedFile → Bool →
    Except Err (List PatchedFile)
  | _, [], _, files, _ => Except.ok files
  | 0, _ :: _, _, files, _ => Except.ok files
  | fuel + 1, line :: rest, sourceFile, files, hasCurrent =>
    match matchSource line with
    | some fn => parseDiffAux fuel rest (some fn) files false
    | none =>
      match matchTarget line with
      | some fn =>
        match sourceFile with
        | none => Except.error Err.crash
        | some sf => parseDiffAux fuel rest (some sf) (files ++ [mkPatchedFile sf fn]) true
      | none =>
        match matchHunkHeader line with
        | some (s1, l1, s2, l2) =>
          match parseHunkAux rest (Hunk.init s1 (l1.getD 1) s2 (l2.getD 1)) 0 0 with
          | .error e => .error e
          | .ok (h, rem) =>
            if hasCurrent then parseDiffAux fuel rem sourceFile (appendHunkToLast files h) true
            else Except.error Err.crash
        | none => parseDiffAux fuel rest sourceFile files hasCurrent

/-- `parse_diff`. -/
def parse_diff (lines : List Str) : Except Err (List PatchedFile) :=
  parseDiffAux lines.length lines none [] false

/-- One revision's input (class `GitRev` plus its number from `enumerate`):
identifier, short message, raw diff text as lines. -/
structure RevInput where
  rev : Str
  msg : Str
  diff : List Str
deriving Repr

/-- A revision as the analyzers see it: its ordinal number and its display
string `"%s (%s)" % (rev, msg)` (`GitRev.__str__`). -/
structure Patch where
  number : Nat
  pstr : Str
deriving Repr, DecidableEq

/-- `patchOf n r` is revision `r` with number `n` assigned by `enumerate`. -/
def patchOf (n : Nat) (r : RevInput) : Patch :=
  ⟨n, r.rev ++ str " (" ++ r.msg ++ str ")"⟩

/-- Dependency kinds: `DEPEND_HARD` and `DEPEND_PROXIMITY`. -/
inductive DepKind where
  | hard
  | proximity
deriving Repr, DecidableEq

/-- The dependency data of a run.  `depends` is the
`patch → (patch → kind)` map (patches are identified by their numbers,
which `main` assigns distinctly).  `DEPEND_HARD` is a single class-level
`Bunch` object shared by every hard edge of the whole run, so its
`dottooltip` attribute is one process-global mutable slot, modelled here
as `hardTooltip`; the diagnostic of any hard edge in the final map is
whatever this slot last held. -/
structure AnalysisSt where
  depends : Nat → Nat → Option DepKind
  hardTooltip : Option Str

/-- Point update of the dependency map. -/
def setDep (m : Nat → Nat → Option DepKind) (j i : Nat) (k : DepKind) :
    Nat → Nat → Option DepKind :=
  fun a b => if a = j ∧ b = i then some k else m a b

/-- `depends[patch][owner] = DEPEND_HARD` followed by the assignment of
`dottooltip = "-" + change.source_line` on the shared `Bunch`. -/
def addHard (st : AnalysisSt) (j i : Nat) (deleted : Str) : AnalysisSt :=
  { depends := setDep st.depends j i DepKind.hard,
    hardTooltip := some ('-' :: deleted) }

/-- `if p not in depends[patch] and p != patch: depends[patch][p] =
DEPEND_PROXIMITY` (both proximity-emission sites use this guard). -/
def addProx (st : AnalysisSt) (j i : Nat) : AnalysisSt :=
  if st.depends j i = none ∧ i ≠ j then
    { st with depends := setDep st.depends j i DepKind.proximity }
  else st

/-- State of a particular line in a file (class `LineState`): position,
optional known text, optional owner, and the proximity set (a dict from
patch number to patch, kept in insertion order). -/
structure LineState where
  lineno : Int
  line : Option Str
  changed_by : Option Nat
  proximity : List Nat
deriving Repr, DecidableEq

/-- `s.proximity[patch.number] = patch`: re-assigning an existing key is a
no-op for a dict of patches keyed by their own numbers. -/
def LineState.claimProx (s : LineState) (p : Nat) : LineState :=
  if p ∈ s.proximity then s else { s with proximity := s.proximity ++ [p] }

/-- The per-file analyzer (class `ByLineFileAnalyzer`): file name, proximity
window, the ordered line states, and the three cursors used while replaying
one revision (`self.to_update_idx`, `self.processed_idx`, `self.offset`). -/
structure FileAn where
  fname : Str
  proximity : Int
  line_list : List LineState
  to_update_idx : Int
  processed_idx : Int
  offset : Int
deriving Repr, DecidableEq

/-- A fresh analyzer (`ByLineFileAnalyzer.__init__`; the cursor fields are
(re)set by `analyze` before use). -/
def newFileAn (path : Str) (prox : Int) : FileAn :=
  ⟨path, prox, [], 0, -1, 0⟩

/-- `line_list[i]` for a (non-negative) integer index. -/
def zget (l : List LineState) (i : Int) : Option LineState :=
  if 0 ≤ i then l.get? i.toNat else none

/-- `line_list.insert(i, s)` for a non-negative integer index (Python
clamps an index beyond the end to an append; negative indices do not occur
at the insertion sites of this program). -/
def zinsert (l : List LineState) (i : Int) (s : LineState) : List LineState :=
  l.insertIdx (min i.toNat l.length) s

/-- `del line_list[i]`. -/
def zerase (l : List LineState) (i : Int) : List LineState :=
  l.eraseIdx i.toNat

/-- In-place field update of `line_list[i]`. -/
def zmodify (l : List LineState) (i : Int) (f : LineState → LineState) : List LineState :=
  l.modify f i.toNat

/-- The scan inside `line_state`: walk forward from the given index, stop
at the first state with `lineno ≥` the target; report whether it equals
the target. -/
def lineStateScan (lineno : Int) : List LineState → Int → Int × Bool
  | [], idx => (idx, false)
  | s :: rest, idx =>
    if s.lineno = lineno then (idx, true)
    else if s.lineno < lineno then lineStateScan lineno rest (idx + 1)
    else (idx, false)

/-- `line_state`: advance `processed_idx`, scan forward for the state of
the given source line number, and create a missing state when asked.  The
result flag says whether a state for the line now sits at `processed_idx`
(it is `false` only when `create` is false). -/
def FileAn.line_state (fa : FileAn) (lineno : Int) (create : Bool) : FileAn × Bool :=
  let start := fa.processed_idx + 1
  let scan := lineStateScan lineno (fa.line_list.drop start.toNat) start
  if scan.2 then ({ fa with processed_idx := scan.1 }, true)
  else if create then
    ({ fa with
        processed_idx := scan.1
        line_list := zinsert fa.line_list scan.1 (LineState.mk lineno none none []) }, true)
  else ({ fa with processed_idx := scan.1 }, false)

/-- `update_offset`: apply the pending offset to the line numbers of the
states in `line_list[to_update_idx:processed_idx]` (slice bounds clamped
to the list as in Python; both cursors are non-negative whenever this
runs), advance `to_update_idx` once per renumbered state, then adjust the
offset by `amount`. -/
def FileAn.update_offset (fa : FileAn) (amount : Int) : FileAn :=
  let len : Int := fa.line_list.length
  let a := max 0 (min fa.to_update_idx len)
  let b := max 0 (min fa.processed_idx len)
  let cnt := max 0 (b - a)
  let ll := fa.line_list.mapIdx fun k s =>
    if a ≤ (k : Int) ∧ (k : Int) < b then { s with lineno := s.lineno + fa.offset } else s
  { fa with
    line_list := ll
    to_update_idx := fa.to_update_idx + cnt
    offset := fa.offset + amount }

/-- The backward proximity-claim loop of `analyze_hunk` ("claim proximity
lines before it"): walk down from the state before the located one,
inserting missing states, stopping at the window edge, at line 0, or at
the first state already carrying the patch.  The loop guard
`change.source_lineno_abs - lineno <= self.proximity` is realised by a
fuel: entered with `lineno = src - 1` and fuel `proximity.toNat`, the
pass for `lineno = src - 1 - k` has fuel `proximity.toNat - k`, and the
guard holds exactly while the fuel is positive.  The remaining guard
`lineno > 0` is checked explicitly; the `assert i >= self.to_update_idx`
after an insert is modelled as `Err.assertFail`. -/
def claimBeforeAux (pnum : Nat) : Nat → FileAn → Int → Int → Except Err FileAn
  | 0, fa, _, _ => Except.ok fa
  | fuel + 1, fa, i, lineno =>
    if 0 < lineno then
      let step : Except Err (FileAn × Int) :=
        if i < 0 then
          let fa2 := { fa with
            line_list := zinsert fa.line_list (i + 1) (LineState.mk lineno none none [])
            processed_idx := fa.processed_idx + 1 }
          if i + 1 < fa2.to_update_idx then .error Err.assertFail else .ok (fa2, i + 1)
        else
          match zget fa.line_list i with
          | none => .error Err.crash
          | some s =>
            if (fa.to_update_idx ≤ i ∧ s.lineno < lineno) ∨
               (i < fa.to_update_idx ∧ s.lineno - fa.offset < lineno) then
              let fa2 := { fa with
                line_list := zinsert fa.line_list (i + 1) (LineState.mk lineno none none [])
                processed_idx := fa.processed_idx + 1 }
              if i + 1 < fa2.to_update_idx then .error Err.assertFail else .ok (fa2, i + 1)
            else .ok (fa, i)
      match step with
      | .error e => .error e
      | .ok (fa2, i2) =>
        match zget fa2.line_list i2 with
        | none => .error Err.crash
        | some s =>
          if pnum ∈ s.proximity ∨ s.changed_by = some pnum then .ok fa2
          else
            claimBeforeAux pnum fuel
              { fa2 with line_list := zmodify fa2.line_list i2 (fun t => t.claimProx pnum) }
              (i2 - 1) (lineno - 1)
    else Except.ok fa

/-- Entry to the backward claim loop: `i = processed_idx - 1`,
`lineno = src - 1`, window fuel `proximity.toNat`. -/
def FileAn.claimBefore (fa : FileAn) (pnum : Nat) (src : Int) : Except Err FileAn :=
  claimBeforeAux pnum fa.proximity.toNat fa (fa.processed_idx - 1) (src - 1)

/-- The forward proximity-claim loop of `analyze_hunk` ("claim proximity
lines after it"): walk up from `to_update_idx`, inserting missing states
(each insert asserts `i > processed_idx`), claiming every visited state
until the window edge.  The loop guard
`lineno - change.source_lineno_abs < self.proximity` is realised by a
fuel: entered with fuel `(proximity - (lineno - src)).toNat`, the pass
for the k-th line has fuel smaller by k, and the guard holds exactly
while the fuel is positive. -/
def claimAfterAux (pnum : Nat) : Nat → FileAn → Int → Int → Except Err FileAn
  | 0, fa, _, _ => Except.ok fa
  | fuel + 1, fa, i, lineno =>
    let step : Except Err FileAn :=
      if (fa.line_list.length : Int) ≤ i then
        if i ≤ fa.processed_idx then .error Err.assertFail
        else .ok { fa with line_list := zinsert fa.line_list i (LineState.mk lineno none none []) }
      else
        match zget fa.line_list i with
        | none => .error Err.crash
        | some s =>
          if lineno < s.lineno then
            if i ≤ fa.processed_idx then .error Err.assertFail
            else .ok { fa with line_list := zinsert fa.line_list i (LineState.mk lineno none none []) }
          else .ok fa
    match step with
    | .error e => .error e
    | .ok fa2 =>
      claimAfterAux pnum fuel
        { fa2 with line_list := zmodify fa2.line_list i (fun t => t.claimProx pnum) }
        (i + 1) (lineno + 1)

/-- Entry to the forward claim loop: `i = to_update_idx`, `lineno = src`,
bumped to 1 when the change sits at source line 0 (file creation), window
fuel `(proximity - (lineno - src)).toNat`. -/
def FileAn.claimAfter (fa : FileAn) (pnum : Nat) (src : Int) : Except Err FileAn :=
  let lineno := if src = 0 then src + 1 else src
  claimAfterAux pnum (fa.proximity - (lineno - src)).toNat fa fa.to_update_idx lineno

/-- `str(None)` versus a known line, as interpolated by `"%s" %`. -/
def optLineStr : Option Str → Str
  | none => str "None"
  | some s => s

/-- Decimal rendering of an integer. -/
def intStr (i : Int) : Str :=
  (toString i).data

/-- The exact stderr text written when a change's recorded source text
disagrees with the reconstructed line (the six `sys.stderr.write` calls
before `sys.exit(1)`). -/
def consistencyMessage (pstr : Str) (lineno : Int) (stored : Str) (claimed : Option Str) : Str :=
  str "While processing " ++ pstr ++ str "\n" ++
  str "Warning: patch does not apply cleanly! Results are probably wrong!\n" ++
  str "According to previous patches, line " ++ intStr lineno ++ str " is:\n" ++
  stored ++ str "\n" ++
  str "But according to " ++ pstr ++ str ", it should be:\n" ++
  optLineStr claimed ++ str "\n\n"

/-- The text-consistency check of `analyze_hunk` ("For changes that know
about the contents of the old line, check if it matches our
observations"): compare the recorded source text with the located state's
known text; a mismatch is the fatal consistency failure. -/
def checkText (fa : FileAn) (patch : Patch) (change : Change) : Except Err Unit :=
  if change.action ≠ '+' then
    match zget fa.line_list fa.processed_idx with
    | none => Except.error Err.crash
    | some ls =>
      match ls.line with
      | some stored =>
        if change.source_line ≠ some stored then
          Except.error (Err.consistency
            (consistencyMessage patch.pstr change.source_lineno_abs stored change.source_line))
        else Except.ok ()
      | none => Except.ok ()
  else Except.ok ()

/-- The context branch of `analyze_hunk`: adopt the line's text when it
was unknown. -/
def contextStep (st : AnalysisSt) (fa : FileAn) (change : Change) :
    Except Err (AnalysisSt × FileAn) :=
  match zget fa.line_list fa.processed_idx with
  | none => Except.error Err.crash
  | some ls =>
    if ls.line = none then
      let ll := zmodify fa.line_list fa.processed_idx
        (fun t => { t with line := change.target_line })
      Except.ok (st, { fa with line_list := ll })
    else Except.ok (st, fa)

/-- The add branch of `analyze_hunk`: bump the offset, insert the new
owned state at the target position (asserting the cursors agree), advance
the boundary, and inherit proximity dependencies from the state previously
occupying the source position (its proximity set, then its owner).  The
fields of that previously located state are read in the source after the
new state is inserted, but nothing changes them in between, so they are
captured up front here. -/
def addStep (st : AnalysisSt) (fa : FileAn) (patch : Patch) (change : Change) (found : Bool) :
    Except Err (AnalysisSt × FileAn) :=
  let oldInfo : Except Err (Option (List Nat × Option Nat)) :=
    if found then
      match zget fa.line_list fa.processed_idx with
      | some ls => Except.ok (some (ls.proximity, ls.changed_by))
      | none => Except.error Err.crash
    else Except.ok none
  match oldInfo with
  | Except.error e => Except.error e
  | Except.ok oldInfo =>
    let fa := fa.update_offset 1
    let ll := zinsert fa.line_list fa.processed_idx
      (LineState.mk change.target_lineno_abs change.target_line (some patch.number) [])
    let fa := { fa with line_list := ll }
    if fa.processed_idx = fa.to_update_idx then
      let fa := { fa with to_update_idx := fa.to_update_idx + 1 }
      let st :=
        match oldInfo with
        | none => st
        | some (prox, cb) =>
          (prox ++ cb.toList).foldl (fun acc p => addProx acc patch.number p) st
      Except.ok (st, fa)
    else Except.error Err.assertFail

/-- The delete branch of `analyze_hunk`: bump the offset, emit a hard edge
to the line's owner (if any) carrying `"-" + change.source_line`, emit
proximity edges to every patch in the line's proximity set, and remove the
state. -/
def deleteStep (st : AnalysisSt) (fa : FileAn) (patch : Patch) (change : Change) :
    Except Err (AnalysisSt × FileAn) :=
  let fa := fa.update_offset (-1)
  match zget fa.line_list fa.processed_idx with
  | none => Except.error Err.crash
  | some ls =>
    let st1 : Except Err AnalysisSt :=
      match ls.changed_by with
      | some owner =>
        match change.source_line with
        | some txt => Except.ok (addHard st patch.number owner txt)
        | none => Except.error Err.crash
      | none => Except.ok st
    match st1 with
    | Except.error e => Except.error e
    | Except.ok st2 =>
      let st3 := ls.proximity.foldl (fun acc p => addProx acc patch.number p) st2
      Except.ok (st3, { fa with
        line_list := zerase fa.line_list fa.processed_idx
        processed_idx := fa.processed_idx - 1 })

/-- The body of the `for change in hunk.changes` loop of `analyze_hunk`:
locate (or create) the line state, claim proximity lines before the
change, check text consistency, dispatch on the action (context / add /
delete; a `\` change falls through all three branches), then claim
proximity lines after the change. -/
def processChange (st : AnalysisSt) (fa : FileAn) (patch : Patch) (change : Change) :
    Except Err (AnalysisSt × FileAn) :=
  let create := change.action ≠ '+'
  let lsr := fa.line_state change.source_lineno_abs create
  let fa := lsr.1
  let found := lsr.2
  let before : Except Err FileAn :=
    if change.action ≠ ' ' ∧ fa.proximity ≠ 0 then
      fa.claimBefore patch.number change.source_lineno_abs
    else Except.ok fa
  match before with
  | Except.error e => Except.error e
  | Except.ok fa =>
    match checkText fa patch change with
    | Except.error e => Except.error e
    | Except.ok _ =>
      let branch : Except Err (AnalysisSt × FileAn) :=
        if change.action = ' ' then contextStep st fa change
        else if change.action = '+' then addStep st fa patch change found
        else if change.action = '-' then deleteStep st fa patch change
        else Except.ok (st, fa)
      match branch with
      | Except.error e => Except.error e
      | Except.ok (st, fa) =>
        let after : Except Err FileAn :=
          if change.action ≠ ' ' ∧ fa.proximity ≠ 0 then
            fa.claimAfter patch.number change.source_lineno_abs
          else Except.ok fa
        match after with
        | Except.error e => Except.error e
        | Except.ok fa => Except.ok (st, fa)

/-- The changes of one hunk, processed in declared order. -/
def processChanges (patch : Patch) :
    AnalysisSt → FileAn → List Change → Except Err (AnalysisSt × FileAn)
  | st, fa, [] => Except.ok (st, fa)
  | st, fa, c :: cs =>
    match processChange st fa patch c with
    | Except.error e => Except.error e
    | Except.ok (st2, fa2) => processChanges patch st2 fa2 cs

/-- `analyze_hunk`: process each change of the hunk in order. -/
def analyze_hunk (st : AnalysisSt) (fa : FileAn) (patch : Patch) (hunk : Hunk) :
    Except Err (AnalysisSt × FileAn) :=
  processChanges patch st fa hunk.changes

/-- The hunks of one revision, replayed in file order. -/
def analyzeHunks (patch : Patch) :
    AnalysisSt → FileAn → List Hunk → Except Err (AnalysisSt × FileAn)
  | st, fa, [] => Except.ok (st, fa)
  | st, fa, h :: hs =>
    match analyze_hunk st fa patch h with
    | Except.error e => Except.error e
    | Except.ok (st2, fa2) => analyzeHunks patch st2 fa2 hs

/-- `ByLineFileAnalyzer.analyze`: reset the cursors, replay the hunks,
then renumber everything after the last hunk. -/
def FileAn.analyze (fa : FileAn) (st : AnalysisSt) (patch : Patch) (hunks : List Hunk) :
    Except Err (AnalysisSt × FileAn) :=
  let fa0 := { fa with to_update_idx := 0, processed_idx := -1, offset := 0 }
  match analyzeHunks patch st fa0 hunks with
  | Except.error e => Except.error e
  | Except.ok (st2, fa2) =>
    let fa3 := { fa2 with processed_idx := (fa2.line_list.length : Int) }
    Except.ok (st2, fa3.update_offset 0)

/-- The per-path analyzer table of `ByLineAnalyzer.analyze` (a dict in
insertion order). -/
def lookupAnalyzer : List (Str × FileAn) → Str → Option FileAn
  | [], _ => none
  | (p, fa) :: rest, path => if p = path then some fa else lookupAnalyzer rest path

/-- Store an analyzer back (update in place, or append a new path). -/
def updateAnalyzer : List (Str × FileAn) → Str → FileAn → List (Str × FileAn)
  | [], path, fa => [(path, fa)]
  | (p, old) :: rest, path, fa =>
    if p = path then (p, fa) :: rest else (p, old) :: updateAnalyzer rest path fa

/-- One revision inside `ByLineAnalyzer.analyze`: for each patched file,
fetch or lazily create the per-path analyzer and replay the hunks. -/
def byLinePatch (prox : Int) :
    AnalysisSt → List (Str × FileAn) → Patch → List PatchedFile →
    Except Err (AnalysisSt × List (Str × FileAn))
  | st, ans, _, [] => Except.ok (st, ans)
  | st, ans, patch, f :: fs =>
    let fa := (lookupAnalyzer ans f.path).getD (newFileAn f.path prox)
    match fa.analyze st patch f.hunks with
    | Except.error e => Except.error e
    | Except.ok (st2, fa2) => byLinePatch prox st2 (updateAnalyzer ans f.path fa2) patch fs

/-- The empty dependency data. -/
def emptyAnalysis : AnalysisSt := ⟨fun _ _ => none, none⟩

/-- `ByLineAnalyzer.analyze` over a revision list, numbering revisions from
`n` upward. -/
def byLineRunAux (prox : Int) : List RevInput → Nat → AnalysisSt → List (Str × FileAn) →
    Except Err (AnalysisSt × List (Str × FileAn))
  | [], _, st, ans => .ok (st, ans)
  | r :: rest, n, st, ans =>
    match parse_diff r.diff with
    | Except.error e => Except.error e
    | Except.ok files =>
      match byLinePatch prox st ans (patchOf n r) files with
      | Except.error e => Except.error e
      | Except.ok (st2, ans2) => byLineRunAux prox rest (n + 1) st2 ans2

/-- The whole line-level pipeline of `main`: parse each revision's diff and
feed it to `ByLineAnalyzer`, revisions numbered `0, 1, ...` in order. -/
def byLineRun (prox : Int) (revs : List RevInput) :
    Except Err (AnalysisSt × List (Str × FileAn)) :=
  byLineRunAux prox revs 0 emptyAnalysis []

/-- `touches_file` lookup for `ByFileAnalyzer` (`defaultdict(list)`). -/
def lookupTouches : List (Str × List Nat) → Str → List Nat
  | [], _ => []
  | (p, ps) :: rest, path => if p = path then ps else lookupTouches rest path

/-- `touches_file[f.path].append(patch)`. -/
def appendTouch : List (Str × List Nat) → Str → Nat → List (Str × List Nat)
  | [], path, n => [(path, [n])]
  | (p, ps) :: rest, path, n =>
    if p = path then (p, ps ++ [n]) :: rest else (p, ps) :: appendTouch rest path n

/-- Point update of the file-level dependency map (`depends[patch][other] =
True`). -/
def setDepBool (m : Nat → Nat → Bool) (j i : Nat) : Nat → Nat → Bool :=
  fun a b => if a = j ∧ b = i then true else m a b

/-- One revision inside `ByFileAnalyzer.analyze`. -/
def byFilePatch (pnum : Nat) :
    List (Str × List Nat) → (Nat → Nat → Bool) → List PatchedFile →
    List (Str × List Nat) × (Nat → Nat → Bool)
  | touches, dep, [] => (touches, dep)
  | touches, dep, f :: fs =>
    let others := lookupTouches touches f.path
    let dep2 := others.foldl (fun d o => setDepBool d pnum o) dep
    byFilePatch pnum (appendTouch touches f.path pnum) dep2 fs

/-- `ByFileAnalyzer.analyze` over a revision list. -/
def byFileRunAux : List RevInput → Nat → List (Str × List Nat) → (Nat → Nat → Bool) →
    Except Err (Nat → Nat → Bool)
  | [], _, _, dep => .ok dep
  | r :: rest, n, touches, dep =>
    match parse_diff r.diff with
    | Except.error e => Except.error e
    | Except.ok files =>
      let td := byFilePatch n touches dep files
      byFileRunAux rest (n + 1) td.1 td.2

/-- The whole file-level pipeline of `main`. -/
def byFileRun (revs : List RevInput) : Except Err (Nat → Nat → Bool) :=
  byFileRunAux revs 0 [] (fun _ _ => false)

/-- Final dependency-map lookup of a line-level run (`none` when the run
fails). -/
def runDep (prox : Int) (revs : List RevInput) (j i : Nat) : Option (Option DepKind) :=
  match byLineRun prox revs with
  | .ok (st, _) => some (st.depends j i)
  | .error _ => none

/-- Final shared hard-edge diagnostic of a line-level run. -/
def runTooltip (prox : Int) (revs : List RevInput) : Option (Option Str) :=
  match byLineRun prox revs with
  | .ok (st, _) => some st.hardTooltip
  | .error _ => none

/-- The error a line-level run ends with, if any. -/
def runErr (prox : Int) (revs : List RevInput) : Option Err :=
  match byLineRun prox revs with
  | .ok _ => none
  | .error e => some e

/-- Final line states of one file's analyzer after a line-level run. -/
def runFileStates (prox : Int) (revs : List RevInput) (path : Str) : Option (List LineState) :=
  match byLineRun prox revs with
  | .ok (_, ans) => (lookupAnalyzer ans path).map FileAn.line_list
  | .error _ => none

/-- Final dependency-map lookup of a file-level run. -/
def fileDep (revs : List RevInput) (j i : Nat) : Option Bool :=
  match byFileRun revs with
  | .ok d => some (d j i)
  | .error _ => none

/-- 1 when the change consumes a source line ({context, delete}). -/
def srcCnt (c : Change) : Int := if c.action = ' ' ∨ c.action = '-' then 1 else 0

/-- 1 when the change produces a target line ({context, add}). -/
def tgtCnt (c : Change) : Int := if c.action = ' ' ∨ c.action = '+' then 1 else 0

/-- Count of {context, delete} changes. -/
def countSourceI (cs : List Change) : Int := (cs.map srcCnt).sum

/-- Count of {context, add} changes. -/
def countTargetI (cs : List Change) : Int := (cs.map tgtCnt).sum

/-- Decide whether a parse result is a hunk whose change counts match its
declared lengths (`none` when the parse failed). -/
def hunkCountsOk (r : Except Err (Hunk × List Str)) : Option Bool :=
  match r with
  | Except.ok (h, _) =>
    some (decide (countSourceI h.changes = h.source_length ∧
                  countTargetI h.changes = h.target_length))
  | Except.error _ => none

/-- The per-hunk action sequences of a parse result. -/
def parsedActions (r : Except Err (List PatchedFile)) : Option (List (List (List Char))) :=
  match r with
  | Except.ok fs => some (fs.map fun f => f.hunks.map fun h => h.changes.map Change.action)
  | Except.error _ => none

/-- Whether a run ended in the fatal consistency failure. -/
def isConsistencyErr : Option Err → Bool
  | some (Err.consistency _) => true
  | _ => false

/-- Whether the consistency message of a failed run contains a character. -/
def errMsgContains (e : Option Err) (c : Char) : Bool :=
  match e with
  | some (Err.consistency m) => m.contains c
  | _ => false

/-- Whether the (first) final line state carrying the given text has the
given patch in its proximity set (`none` when absent or the run failed). -/
def stateMarked (sts : Option (List LineState)) (text : Str) (p : Nat) : Option Bool :=
  match sts with
  | some l =>
    match l.find? (fun s => s.line == some text) with
    | some s => some (s.proximity.contains p)
    | none => none
  | none => none

/-- The hunk parsed from a complete 2-source-line, 2-target-line hunk
body, used as the C5 witness value. -/
def c5hunk : Hunk :=
  { source_start := 5, source_length := 2, target_start := 5, target_length := 2,
    changes := [
      { action := ' ', source_lineno_rel := 0, source_line := some ['a'],
        target_lineno_rel := 0, target_line := some ['a'],
        source_lineno_abs := 5, target_lineno_abs := 5 },
      { action := '-', source_lineno_rel := 1, source_line := some ['b'],
        target_lineno_rel := 1, target_line := none,
        source_lineno_abs := 6, target_lineno_abs := 6 },
      { action := '+', source_lineno_rel := 2, source_line := none,
        target_lineno_rel := 1, target_line := some ['c'],
        source_lineno_abs := 7, target_lineno_abs := 6 }],
    to_parse := (0, 0) }

/-- Scenario-B revision: adds one line at target position 10 of `X` with a
hunk carrying three context lines, so the add is recorded at source
position 10. -/
def revX1 : RevInput :=
  ⟨str "r1", str "m1",
   [str "--- a/X", str "+++ b/X", str "@@ -7,3 +7,4 @@",
    str " a", str " b", str " c", str "+L"]⟩

/-- Scenario-B revision: adds one line at target position 10 of `X` with a
zero-source-length hunk, so the add is recorded at source position 9. -/
def revX1z : RevInput :=
  ⟨str "r1", str "m1",
   [str "--- a/X", str "+++ b/X", str "@@ -9,0 +10,1 @@", str "+L"]⟩

/-- Scenario-B later revision: its hunk for `X` has a context change at
source position 11 and a delete and an add at source position 12. -/
def revX2 : RevInput :=
  ⟨str "r2", str "m2",
   [str "--- a/X", str "+++ b/X", str "@@ -11,2 +11,2 @@",
    str " ctx", str "-old", str "+new"]⟩

/-- A first revision whose context line records text at position 12 of
`Y`, creating a line state there. -/
def revY1 : RevInput :=
  ⟨str "r1", str "m1",
   [str "--- a/Y", str "+++ b/Y", str "@@ -12,1 +12,1 @@", str " t12"]⟩

/-- A later revision whose only change is a delete at source position 10
of `Y`. -/
def revY2 : RevInput :=
  ⟨str "r2", str "m2",
   [str "--- a/Y", str "+++ b/Y", str "@@ -10,1 +10,0 @@", str "-old"]⟩

/-- Adds the line `fff` at target position 1 of `Z`. -/
def revZ1 : RevInput :=
  ⟨str "r1", str "m1",
   [str "--- a/Z", str "+++ b/Z", str "@@ -0,0 +1,1 @@", str "+fff"]⟩

/-- Adds the line `ggg` at target position 5 of `Z`. -/
def revZ2 : RevInput :=
  ⟨str "r2", str "m2",
   [str "--- a/Z", str "+++ b/Z", str "@@ -4,0 +5,1 @@", str "+ggg"]⟩

/-- Deletes the line `fff` (owned by revision 0) and, in a second hunk,
the line `ggg` (owned by revision 1). -/
def revZ3 : RevInput :=
  ⟨str "r3", str "m3",
   [str "--- a/Z", str "+++ b/Z", str "@@ -1,1 +1,0 @@", str "-fff",
    str "@@ -5,1 +3,1 @@", str "-ggg", str "+hhh"]⟩

/-- A revision recording the context text `bar` at line 5 of file `qq`. -/
def revQ1 : RevInput :=
  ⟨str "r1", str "m1",
   [str "--- a/qq", str "+++ b/qq", str "@@ -5,1 +5,1 @@", str " bar"]⟩

/-- A revision recording the conflicting context text `bat` at line 5 of
file `qq`. -/
def revQ2 : RevInput :=
  ⟨str "r2", str "m2",
   [str "--- a/qq", str "+++ b/qq", str "@@ -5,1 +5,1 @@", str " bat"]⟩

/-- A revision recording the context text `bar` at line 6 of `W`. -/
def revW1 : RevInput :=
  ⟨str "r1", str "m1",
   [str "--- a/W", str "+++ b/W", str "@@ -6,1 +6,1 @@", str " bar"]⟩

/-- A revision whose hunk carries a mid-hunk no-newline marker line: the
backslash line sits between the last old-file line and the new-file line,
so `_parse_hunk` consumes it before the hunk's counts are exhausted. -/
def revW2 : RevInput :=
  ⟨str "r2", str "m2",
   [str "--- a/W", str "+++ b/W", str "@@ -5,2 +5,2 @@",
    str " foo", str "\\ No newline at end of file", str "-baz", str "+qux"]⟩

/-- A revision whose diff names the same path `X` in two file sections
(accepted by the parser), for the file-level analyzer. -/
def revD1 : RevInput :=
  ⟨str "r1", str "m1",
   [str "--- a/X", str "+++ b/X", str "@@ -1,1 +1,1 @@", str "-a", str "+b",
    str "--- a/X", str "+++ b/X", str "@@ -2,1 +2,1 @@", str "-c", str "+d"]⟩

/-- A revision whose diff names the same path `Y` twice: the first section
adds a line, the second deletes that same line, so the line-level analyzer
sees the revision delete a line it owns itself. -/
def revD2 : RevInput :=
  ⟨str "r1", str "m1",
   [str "--- a/Y", str "+++ b/Y", str "@@ -4,0 +5,1 @@", str "+www",
    str "--- a/Y", str "+++ b/Y", str "@@ -5,1 +5,0 @@", str "-www"]⟩

/-- A line state holding the reconstructed text `bar` at line 5. -/
def lsQ : LineState := ⟨5, some (str "bar"), none, []⟩

/-- A per-file analyzer for `qq` holding only `lsQ`, cursors reset. -/
def faQ : FileAn := ⟨str "qq", 0, [lsQ], 0, -1, 0⟩

/-- `faQ` after locating line 5 (`processed_idx` advanced to it). -/
def faQ2 : FileAn := ⟨str "qq", 0, [lsQ], 0, 0, 0⟩

/-- A context change at line 5 recording the conflicting text `bat`. -/
def chQ : Change := ⟨' ', 0, some (str "bat"), 0, some (str "bat"), 5, 5⟩

/-- Revision `revQ2` as the second patch of a run. -/
def pQ : Patch := patchOf 1 revQ2

/-- The consistency message for the `bar` / `bat` conflict at line 5. -/
def msgQ : Str := consistencyMessage pQ.pstr 5 (str "bar") (some (str "bat"))

/-- Every owner and proximity mark in a list of line states is a revision
number below `n`. -/
def MarksBoundL (n : Nat) (l : List LineState) : Prop :=
  ∀ ls ∈ l, (∀ q, ls.changed_by = some q → q < n) ∧ (∀ q ∈ ls.proximity, q < n)

/-- Every state owned by revision `p` sits strictly below index `b`. -/
def OwnBelowL (p : Nat) (l : List LineState) (b : Int) : Prop :=
  ∀ (k : Nat) (ls : LineState), l.get? k = some ls →
    ls.changed_by = some p → (k : Int) < b

/-- Edges of the line-level map are bounded: every present edge `(j, i)`
satisfies `i < j` and `j < n`. -/
def DepStrict (n : Nat) (st : AnalysisSt) : Prop :=
  ∀ j i, st.depends j i ≠ none → i < j ∧ j < n

/-- Edges of the file-level map are bounded likewise. -/
def DepStrictB (n : Nat) (d : Nat → Nat → Bool) : Prop :=
  ∀ j i, d j i = true → i < j ∧ j < n

/-- Entries of the `touches_file` table are revisions below `n`. -/
def TouchesBound (n : Nat) (t : List (Str × List Nat)) : Prop :=
  ∀ pa, ∀ q ∈ lookupTouches t pa, q < n

/-- All marks of every per-path analyzer are revisions below `n`. -/
def AnsBound (n : Nat) (ans : List (Str × FileAn)) : Prop :=
  ∀ pa fa, lookupAnalyzer ans pa = some fa → MarksBoundL n fa.line_list

/-- A revision whose parsed diff names each logical path at most once
(`true` as well when the diff does not parse, since the run aborts before
the analyzers see it). Diffs produced by git satisfy this. -/
def pathsNodup (r : RevInput) : Bool :=
  match parse_diff r.diff with
  | Except.error _ => true
  | Except.ok files => decide (files.map PatchedFile.path).Nodup

/-- An empty analyzer for file `w` with window 2 (forward-claim witness). -/
def faW : FileAn := ⟨str "w", 2, [], 0, -1, 0⟩

/-- The fresh state the forward claim loop creates and marks at line 7. -/
def lsW7 : LineState := ⟨7, none, none, [3]⟩

/-- The fresh state the forward claim loop creates and marks at line 8. -/
def lsW8 : LineState := ⟨8, none, none, [3]⟩

/-- `faW` after the forward claim loop for a change of revision 3 at source
line 7: lines 7 and 8 created and claimed. -/
def faW2 : FileAn := ⟨str "w", 2, [lsW7, lsW8], 0, -1, 0⟩

/-- An analyzer for file `v` holding one state at line 6, cursor past it. -/
def faV : FileAn := ⟨str "v", 2, [⟨6, some (str "t6"), none, []⟩], 0, 1, 0⟩

/-- The fresh state the backward claim loop creates and marks at line 5. -/
def lsV5 : LineState := ⟨5, none, none, [3]⟩

/-- `faV` after the backward claim loop for a change of revision 3 at
source line 7: line 6 and the freshly created line 5 are both claimed. -/
def faV2 : FileAn := ⟨str "v", 2, [lsV5, ⟨6, some (str "t6"), none, [3]⟩], 0, 2, 0⟩

/-- A state at line 8 already carrying revision 3. -/
def sU8 : LineState := ⟨8, some (str "t8"), none, [3]⟩

/-- An analyzer for file `u` holding only `sU8`, cursor past it. -/
def faU : FileAn := ⟨str "u", 2, [sU8], 0, 1, 0⟩

/-! ## Claim verification -/

/-- C10: a line outside a hunk body that matches none of the three
recognized patterns (source header, target header, hunk header) is
silently skipped by `parse_diff`: it contributes nothing to the parsed
model and never raises a parse failure. -/
theorem claim_C10 (fuel : Nat) (line : Str) (rest : List Str) (sourceFile : Option Str)
    (files : List PatchedFile) (hasCurrent : Bool)
    (hs : matchSource line = none) (ht : matchTarget line = none)
    (hh : matchHunkHeader line = none) :
    parseDiffAux (fuel + 1) (line :: rest) sourceFile files hasCurrent =
      parseDiffAux fuel rest sourceFile files hasCurrent := by
  rw [parseDiffAux]
  simp only [hs, ht, hh]

/-- Witness for C10 at the concrete line `diff --git a/f b/f`. -/
theorem claim_C10_witness :
    matchSource (str "diff --git a/f b/f") = none ∧
    matchTarget (str "diff --git a/f b/f") = none ∧
    matchHunkHeader (str "diff --git a/f b/f") = none ∧
    parseDiffAux 2 [str "diff --git a/f b/f", str "--- a/f"] none [] false =
      parseDiffAux 1 [str "--- a/f"] none [] false :=
  ⟨by decide, by decide, by decide,
    claim_C10 1 _ _ _ _ _ (by decide) (by decide) (by decide)⟩

/-- C7 fails on the code: a rename from `a/old` to `b/new` resolves to the
pre-image path `old`, not to the target path `new` as claimed. -/
theorem claim_C7_counterexample :
    (mkPatchedFile (str "a/old") (str "b/new")).path = str "old" ∧
    ¬ (mkPatchedFile (str "a/old") (str "b/new")).path = str "new" := by
  constructor
  · decide
  · decide

/-- C7 amended: the resolved logical path is the pre-image (source) path
in the normal case (a rename from `a/old` to `b/new` resolves to `old`),
the pre-image path when the target is the deletion sentinel, and the
target path when the source is the creation sentinel. -/
theorem claim_C7 (old new : Str) :
    (mkPatchedFile ('a' :: '/' :: old) ('b' :: '/' :: new)).path = old ∧
    (mkPatchedFile ('a' :: '/' :: old) (str "/dev/null")).path = old ∧
    (mkPatchedFile (str "/dev/null") ('b' :: '/' :: new)).path = new := by
  have ha : ∀ l : Str, (str "a/").isPrefixOf ('a' :: '/' :: l) = true := by
    intro l
    show List.isPrefixOf ['a', '/'] ('a' :: '/' :: l) = true
    simp [List.isPrefixOf]
  have hb : ∀ l : Str, (str "b/").isPrefixOf ('b' :: '/' :: l) = true := by
    intro l
    show List.isPrefixOf ['b', '/'] ('b' :: '/' :: l) = true
    simp [List.isPrefixOf]
  have hna : (str "a/").isPrefixOf (str "/dev/null") = false := by decide
  have hnb : (str "b/").isPrefixOf (str "/dev/null") = false := by decide
  refine ⟨?_, ?_, ?_⟩ <;> simp [mkPatchedFile, ha, hb, hna, hnb, str]

theorem countSourceI_append (cs : List Change) (c : Change) :
    countSourceI (cs ++ [c]) = countSourceI cs + srcCnt c := by
  simp [countSourceI]

theorem countTargetI_append (cs : List Change) (c : Change) :
    countTargetI (cs ++ [c]) = countTargetI cs + tgtCnt c := by
  simp [countTargetI]

/-- What a successful second-half counter update does to the hunk. -/
theorem appendTargetCount_ok (h : Hunk) (c : Change) (h2 : Hunk)
    (heq : h.appendTargetCount c = Except.ok h2) :
    h2.source_length = h.source_length ∧ h2.target_length = h.target_length ∧
    h2.changes = h.changes ∧
    h2.to_parse.1 = h.to_parse.1 ∧
    h2.to_parse.2 = h.to_parse.2 - tgtCnt c := by
  by_cases htgt : c.action = ' ' ∨ c.action = '+' <;>
    simp only [Hunk.appendTargetCount, htgt, if_true, if_false, tgtCnt] at heq ⊢
  · split at heq
    · cases heq
    · cases heq
      simp
  · cases heq
    simp

/-- What a successful `append_change` does to the hunk. -/
theorem append_change_ok (h : Hunk) (c : Change) (h2 : Hunk)
    (heq : h.append_change c = Except.ok h2) :
    h2.source_length = h.source_length ∧ h2.target_length = h.target_length ∧
    h2.changes = h.changes ++ [c] ∧
    h2.to_parse.1 = h.to_parse.1 - srcCnt c ∧
    h2.to_parse.2 = h.to_parse.2 - tgtCnt c := by
  by_cases hsrc : c.action = ' ' ∨ c.action = '-' <;>
    simp only [Hunk.append_change, hsrc, if_true, if_false, srcCnt] at heq ⊢
  · split at heq
    · cases heq
    · have := appendTargetCount_ok _ _ _ heq
      simp at this
      simp [this]
      try omega
  · have := appendTargetCount_ok _ _ _ heq
    simp at this
    simp [this]

/-- The counting invariant of `_parse_hunk`: a successful parse changes
the counts and the remaining `to_parse` budget in lockstep, and never
touches the declared lengths. -/
theorem parseHunkAux_counts :
    ∀ (ls : List Str) (h : Hunk) (a b : Int) (h2 : Hunk) (rem : List Str),
      parseHunkAux ls h a b = Except.ok (h2, rem) →
      h2.source_length = h.source_length ∧ h2.target_length = h.target_length ∧
      countSourceI h2.changes + h2.to_parse.1 = countSourceI h.changes + h.to_parse.1 ∧
      countTargetI h2.changes + h2.to_parse.2 = countTargetI h.changes + h.to_parse.2 := by
  intro ls
  induction ls with
  | nil =>
    intro h a b h2 rem heq
    simp only [parseHunkAux] at heq
    cases heq
    simp
  | cons line rest ih =>
    intro h a b h2 rem heq
    simp only [parseHunkAux] at heq
    cases line with
    | nil => cases heq
    | cons c content =>
      simp only at heq
      split at heq
      · split at heq
        · cases heq
        · rename_i h3 happ
          have hstep := append_change_ok h _ _ happ
          obtain ⟨e1, e2, e3, e4, e5⟩ := hstep
          split at heq
          · cases heq
            refine ⟨e1, e2, ?_, ?_⟩
            · simp only [e3, countSourceI_append]
              omega
            · simp only [e3, countTargetI_append]
              omega
          · have hrec := ih _ _ _ _ _ heq
            obtain ⟨r1, r2, r3, r4⟩ := hrec
            refine ⟨r1.trans e1, r2.trans e2, ?_, ?_⟩
            · rw [r3]
              simp only [e3, countSourceI_append]
              omega
            · rw [r4]
              simp only [e3, countTargetI_append]
              omega
      · cases heq

/-- C5 fails on the code: a hunk declaring lengths 2,2 whose input ends
after one context line is returned by `_parse_hunk` without any parse
failure, with counts 1,1 that do not match the declared lengths. -/
theorem claim_C5_counterexample :
    hunkCountsOk (parseHunkAux [str " x"] (Hunk.init 1 2 1 2) 0 0) = some false := by
  decide

/-- C5 amended: for every hunk the parser completes (both declared counts
exhausted, `is_valid`), the count of {context, delete} changes equals the
declared source length and the count of {context, add} changes equals the
declared target length; consuming past either count is a parse failure,
but input ending early returns the under-filled hunk without error. -/
theorem claim_C5 (ls : List Str) (ss sl ts tl : Int) (h2 : Hunk) (rem : List Str)
    (heq : parseHunkAux ls (Hunk.init ss sl ts tl) 0 0 = Except.ok (h2, rem))
    (hvalid : h2.is_valid = true) :
    countSourceI h2.changes = h2.source_length ∧
    countTargetI h2.changes = h2.target_length := by
  have h4 := parseHunkAux_counts ls _ 0 0 h2 rem heq
  have hv : h2.to_parse = (0, 0) := by
    simpa [Hunk.is_valid] using hvalid
  obtain ⟨r1, r2, r3, r4⟩ := h4
  simp only [Hunk.init, countSourceI, countTargetI, List.map_nil, List.sum_nil, hv]
    at r1 r2 r3 r4 ⊢
  constructor
  · omega
  · omega

/-- Witness for C5 at a complete hunk body: the parse succeeds, the hunk
is valid, and both counts equal the declared lengths. -/
theorem claim_C5_witness :
    parseHunkAux [str " a", str "-b", str "+c"] (Hunk.init 5 2 5 2) 0 0 =
        Except.ok (c5hunk, []) ∧
    c5hunk.is_valid = true ∧
    countSourceI c5hunk.changes = c5hunk.source_length ∧
    countTargetI c5hunk.changes = c5hunk.target_length :=
  ⟨rfl, by decide,
    (claim_C5 [str " a", str "-b", str "+c"] 5 2 5 2 c5hunk [] rfl (by decide)).1,
    (claim_C5 [str " a", str "-b", str "+c"] 5 2 5 2 c5hunk [] rfl (by decide)).2⟩

/-- C6 fails on the code: a mid-hunk backslash line is not ignored.  The
parser appends a `Change` with action `\\` to the hunk's change
sequence, and replaying the two revisions makes that change locate the
line state recorded by the first revision, compare its stored text with
the backslash change's absent source text, and halt the whole run with a
consistency failure. -/
theorem claim_C6 :
    parsedActions (parse_diff revW2.diff) = some [[[' ', '\\', '-', '+']]] ∧
    isConsistencyErr (runErr 2 [revW1, revW2]) = true := by
  constructor
  · decide
  · decide

/-- C3 fails on the code: `DEPEND_HARD` is one shared class-level object,
so the `dottooltip` diagnostic written at each owner-delete overwrites the
diagnostic of every hard edge recorded so far.  After revision 2 deletes
the line `fff` (owned by revision 0) and then the line `ggg` (owned by
revision 1), both hard edges exist but the single shared diagnostic is
`-ggg`, which is not the text `fff` of the deletion that produced the
edge 2 → 0. -/
theorem claim_C3 :
    runDep 0 [revZ1, revZ2, revZ3] 2 0 = some (some DepKind.hard) ∧
    runDep 0 [revZ1, revZ2, revZ3] 2 1 = some (some DepKind.hard) ∧
    runTooltip 0 [revZ1, revZ2, revZ3] = some (some (str "-ggg")) ∧
    str "-ggg" ≠ '-' :: str "fff" := by
  refine ⟨?_, ?_, ?_, ?_⟩
  · decide
  · decide
  · decide
  · decide

/-- C2 fails on the code: with window 2, when R1 adds its line at target
position 10 through the zero-source-length hunk `@@ -9,0 +10,1 @@` (a
legitimate realisation of "adds a line at target position 10", recording
the add at source position 9), R1's proximity marks reach only up to
position 11 in R2's coordinates, so R2's changes at source position 12
find nothing and the run produces no edge R2 → R1 at all — in particular
no proximity edge. -/
theorem claim_C2_counterexample :
    runDep 2 [revX1z, revX2] 1 0 = some none := by
  decide

/-- C2 amended: as claimed, but additionally requiring that R1's hunk
record the add at source position 10 (as a standard hunk with leading
context does): then the proximity edge R2 → R1 appears, and no hard edge,
since line 10 itself is untouched by R2.  With a zero-source-length hunk
(source position 9) no R2 → R1 edge results. -/
theorem claim_C2 :
    runDep 2 [revX1, revX2] 1 0 = some (some DepKind.proximity) ∧
    runDep 2 [revX1z, revX2] 1 0 = some none := by
  constructor
  · decide
  · decide

/-- C4 fails on the code in one respect: the consistency failure halts the
run and reports the revision, the line number and both conflicting texts,
but not the file path.  Concretely, for conflicting context texts at line
5 of the file `qq`, the run halts with a consistency failure whose entire
message contains no character `q`, although the file path consists of
them. -/
theorem claim_C4_counterexample :
    isConsistencyErr (runErr 0 [revQ1, revQ2]) = true ∧
    (str "qq").contains 'q' = true ∧
    errMsgContains (runErr 0 [revQ1, revQ2]) 'q' = false := by
  refine ⟨?_, ?_, ?_⟩
  · decide
  · decide
  · decide

/-- C4 amended: whenever a context or delete change's recorded source
text differs from the non-empty text the tracker previously reconstructed
for that position, the change's processing yields the fatal consistency
failure whose message reports the offending revision, the line number and
both conflicting texts (the file path is not part of the report), and an
error anywhere in a run makes the whole run end with that error, so no
further revisions are processed. -/
theorem claim_C4 :
    (∀ (fa : FileAn) (patch : Patch) (change : Change) (ls : LineState) (stored : Str),
      change.action ≠ '+' →
      zget fa.line_list fa.processed_idx = some ls →
      ls.line = some stored →
      change.source_line ≠ some stored →
      checkText fa patch change =
        Except.error (Err.consistency
          (consistencyMessage patch.pstr change.source_lineno_abs stored change.source_line)))
    ∧
    (∀ (st : AnalysisSt) (fa fa2 : FileAn) (patch : Patch) (change : Change) (e : Err),
      (if change.action ≠ ' ' ∧
          (fa.line_state change.source_lineno_abs (change.action ≠ '+')).1.proximity ≠ 0
       then (fa.line_state change.source_lineno_abs
              (change.action ≠ '+')).1.claimBefore patch.number change.source_lineno_abs
       else Except.ok (fa.line_state change.source_lineno_abs (change.action ≠ '+')).1) =
         Except.ok fa2 →
      checkText fa2 patch change = Except.error e →
      processChange st fa patch change = Except.error e)
    ∧
    (∀ (prox : Int) (pre post : List RevInput) (n : Nat) (st : AnalysisSt)
      (ans : List (Str × FileAn)) (e : Err),
      byLineRunAux prox pre n st ans = Except.error e →
      byLineRunAux prox (pre ++ post) n st ans = Except.error e) := by
  refine ⟨?_, ?_, ?_⟩
  · intro fa patch change ls stored hact hloc hstored hdiff
    unfold checkText
    rw [if_pos hact, hloc]
    dsimp only
    rw [hstored]
    dsimp only
    rw [if_pos hdiff]
  · intro st fa fa2 patch change e hb hc
    unfold processChange
    dsimp only
    rw [hb]
    dsimp only
    rw [hc]
  · intro prox pre post
    induction pre with
    | nil =>
      intro n st ans e h
      simp only [byLineRunAux] at h
      cases h
    | cons r rest ih =>
      intro n st ans e h
      simp only [List.cons_append, byLineRunAux] at h ⊢
      cases hp : parse_diff r.diff with
      | error e2 =>
        rw [hp] at h
        dsimp only at h ⊢
        exact h
      | ok files =>
        rw [hp] at h
        dsimp only at h ⊢
        cases hb : byLinePatch prox st ans (patchOf n r) files with
        | error e2 =>
          rw [hb] at h
          dsimp only at h ⊢
          exact h
        | ok p =>
          rw [hb] at h
          obtain ⟨st2, ans2⟩ := p
          dsimp only at h ⊢
          exact ih _ _ _ _ h

/-- Witness for C4: the conflicting context text `bat` against the
reconstructed `bar` at line 5 yields the consistency failure with the
exact message, at the change level, at the processing level, and for the
whole run even with a further revision appended. -/
theorem claim_C4_witness :
    chQ.action ≠ '+' ∧
    checkText faQ2 pQ chQ = Except.error (Err.consistency msgQ) ∧
    processChange emptyAnalysis faQ pQ chQ = Except.error (Err.consistency msgQ) ∧
    byLineRunAux 0 ([revQ1, revQ2] ++ [revQ1]) 0 emptyAnalysis [] =
      Except.error (Err.consistency msgQ) :=
  ⟨by decide,
   claim_C4.1 faQ2 pQ chQ lsQ (str "bar") (by decide) rfl rfl (by decide),
   claim_C4.2.1 emptyAnalysis faQ faQ2 pQ chQ (Err.consistency msgQ) rfl
     (claim_C4.1 faQ2 pQ chQ lsQ (str "bar") (by decide) rfl rfl (by decide)),
   claim_C4.2.2 0 [revQ1, revQ2] [revQ1] 0 emptyAnalysis [] (Err.consistency msgQ) rfl⟩

theorem addHard_sets (st : AnalysisSt) (j i : Nat) (txt : Str) :
    (addHard st j i txt).depends j i = some DepKind.hard := by
  simp [addHard, setDep]

theorem addProx_preserves_hard (st : AnalysisSt) (a b j i : Nat)
    (h : st.depends j i = some DepKind.hard) :
    (addProx st a b).depends j i = some DepKind.hard := by
  unfold addProx
  split
  · rename_i hcond
    by_cases hji : j = a ∧ i = b
    · exact absurd (hji.1 ▸ hji.2 ▸ h) (by simp [hcond.1])
    · simpa [setDep, hji] using h
  · exact h

theorem addHard_preserves_hard (st : AnalysisSt) (a b : Nat) (txt : Str) (j i : Nat)
    (h : st.depends j i = some DepKind.hard) :
    (addHard st a b txt).depends j i = some DepKind.hard := by
  by_cases hji : j = a ∧ i = b
  · obtain ⟨h1, h2⟩ := hji
    subst h1
    subst h2
    exact addHard_sets st j i txt
  · simpa [addHard, setDep, hji] using h

theorem foldl_addProx_preserves_hard (l : List Nat) (a : Nat) :
    ∀ (st : AnalysisSt) (j i : Nat), st.depends j i = some DepKind.hard →
      (l.foldl (fun acc p => addProx acc a p) st).depends j i = some DepKind.hard := by
  induction l with
  | nil => intro st j i h; exact h
  | cons x xs ih =>
    intro st j i h
    exact ih _ _ _ (addProx_preserves_hard st a x j i h)

theorem contextStep_preserves_hard (st : AnalysisSt) (fa : FileAn) (change : Change)
    (st2 : AnalysisSt) (fa2 : FileAn) (h : contextStep st fa change = Except.ok (st2, fa2))
    (j i : Nat) (hh : st.depends j i = some DepKind.hard) :
    st2.depends j i = some DepKind.hard := by
  unfold contextStep at h
  split at h
  · cases h
  · split at h <;> (cases h; exact hh)

theorem addStep_preserves_hard (st : AnalysisSt) (fa : FileAn) (patch : Patch)
    (change : Change) (found : Bool) (st2 : AnalysisSt) (fa2 : FileAn)
    (h : addStep st fa patch change found = Except.ok (st2, fa2))
    (j i : Nat) (hh : st.depends j i = some DepKind.hard) :
    st2.depends j i = some DepKind.hard := by
  unfold addStep at h
  dsimp only at h
  split at h
  · cases h
  · rename_i oldInfo hold
    split at h
    · cases h
      cases oldInfo with
      | none => exact hh
      | some pr => exact foldl_addProx_preserves_hard _ _ _ _ _ hh
    · cases h

theorem deleteStep_preserves_hard (st : AnalysisSt) (fa : FileAn) (patch : Patch)
    (change : Change) (st2 : AnalysisSt) (fa2 : FileAn)
    (h : deleteStep st fa patch change = Except.ok (st2, fa2))
    (j i : Nat) (hh : st.depends j i = some DepKind.hard) :
    st2.depends j i = some DepKind.hard := by
  unfold deleteStep at h
  dsimp only at h
  split at h
  · cases h
  · rename_i ls _
    split at h
    · cases h
    · rename_i stmid hmid
      cases h
      refine foldl_addProx_preserves_hard _ _ _ _ _ ?_
      revert hmid
      split
      · split
        · intro hmid
          cases hmid
          exact addHard_preserves_hard _ _ _ _ _ _ hh
        · intro hmid
          cases hmid
      · intro hmid
        cases hmid
        exact hh

theorem processChange_preserves_hard (st : AnalysisSt) (fa : FileAn) (patch : Patch)
    (change : Change) (st2 : AnalysisSt) (fa2 : FileAn)
    (h : processChange st fa patch change = Except.ok (st2, fa2))
    (j i : Nat) (hh : st.depends j i = some DepKind.hard) :
    st2.depends j i = some DepKind.hard := by
  unfold processChange at h
  dsimp only at h
  split at h
  · cases h
  · split at h
    · cases h
    · rename_i fa3 _ _
      split at h
      · cases h
      · rename_i stfa hbranch
        obtain ⟨stb, fab⟩ := stfa
        split at h
        · cases h
        · cases h
          revert hbranch
          split
          · intro hbranch
            exact contextStep_preserves_hard _ _ _ _ _ hbranch j i hh
          · split
            · intro hbranch
              exact addStep_preserves_hard _ _ _ _ _ _ _ hbranch j i hh
            · split
              · intro hbranch
                exact deleteStep_preserves_hard _ _ _ _ _ _ hbranch j i hh
              · intro hbranch
                cases hbranch
                exact hh

theorem processChanges_preserves_hard (patch : Patch) (cs : List Change) :
    ∀ (st : AnalysisSt) (fa : FileAn) (st2 : AnalysisSt) (fa2 : FileAn),
      processChanges patch st fa cs = Except.ok (st2, fa2) →
      ∀ (j i : Nat), st.depends j i = some DepKind.hard →
        st2.depends j i = some DepKind.hard := by
  induction cs with
  | nil =>
    intro st fa st2 fa2 h j i hh
    cases h
    exact hh
  | cons c cs ih =>
    intro st fa st2 fa2 h j i hh
    unfold processChanges at h
    split at h
    · cases h
    · rename_i stfa hstep
      obtain ⟨stm, fam⟩ := stfa
      exact ih _ _ _ _ h j i (processChange_preserves_hard _ _ _ _ _ _ hstep j i hh)

theorem analyzeHunks_preserves_hard (patch : Patch) (hs : List Hunk) :
    ∀ (st : AnalysisSt) (fa : FileAn) (st2 : AnalysisSt) (fa2 : FileAn),
      analyzeHunks patch st fa hs = Except.ok (st2, fa2) →
      ∀ (j i : Nat), st.depends j i = some DepKind.hard →
        st2.depends j i = some DepKind.hard := by
  induction hs with
  | nil =>
    intro st fa st2 fa2 h j i hh
    cases h
    exact hh
  | cons hk hs ih =>
    intro st fa st2 fa2 h j i hh
    unfold analyzeHunks at h
    split at h
    · cases h
    · rename_i stfa hstep
      obtain ⟨stm, fam⟩ := stfa
      exact ih _ _ _ _ h j i
        (processChanges_preserves_hard _ _ _ _ _ _ hstep j i hh)

theorem analyze_preserves_hard (fa : FileAn) (st : AnalysisSt) (patch : Patch)
    (hs : List Hunk) (st2 : AnalysisSt) (fa2 : FileAn)
    (h : fa.analyze st patch hs = Except.ok (st2, fa2))
    (j i : Nat) (hh : st.depends j i = some DepKind.hard) :
    st2.depends j i = some DepKind.hard := by
  unfold FileAn.analyze at h
  dsimp only at h
  split at h
  · cases h
  · rename_i stm fam hsteps
    cases h
    exact analyzeHunks_preserves_hard _ _ _ _ _ _ hsteps j i hh

theorem byLinePatch_preserves_hard (prox : Int) (files : List PatchedFile) :
    ∀ (st : AnalysisSt) (ans : List (Str × FileAn)) (patch : Patch)
      (st2 : AnalysisSt) (ans2 : List (Str × FileAn)),
      byLinePatch prox st ans patch files = Except.ok (st2, ans2) →
      ∀ (j i : Nat), st.depends j i = some DepKind.hard →
        st2.depends j i = some DepKind.hard := by
  induction files with
  | nil =>
    intro st ans patch st2 ans2 h j i hh
    cases h
    exact hh
  | cons f fs ih =>
    intro st ans patch st2 ans2 h j i hh
    unfold byLinePatch at h
    dsimp only at h
    split at h
    · cases h
    · rename_i stfa hstep
      obtain ⟨stm, fam⟩ := stfa
      exact ih _ _ _ _ _ h j i (analyze_preserves_hard _ _ _ _ _ _ hstep j i hh)

theorem byLineRunAux_preserves_hard (prox : Int) (revs : List RevInput) :
    ∀ (n : Nat) (st : AnalysisSt) (ans : List (Str × FileAn))
      (st2 : AnalysisSt) (ans2 : List (Str × FileAn)),
      byLineRunAux prox revs n st ans = Except.ok (st2, ans2) →
      ∀ (j i : Nat), st.depends j i = some DepKind.hard →
        st2.depends j i = some DepKind.hard := by
  induction revs with
  | nil =>
    intro n st ans st2 ans2 h j i hh
    cases h
    exact hh
  | cons r rest ih =>
    intro n st ans st2 ans2 h j i hh
    unfold byLineRunAux at h
    split at h
    · cases h
    · split at h
      · cases h
      all_goals
        rename_i hstep
        exact ih _ _ _ _ _ h j i (byLinePatch_preserves_hard _ _ _ _ _ _ _ hstep j i hh)

/-- C8: hard subsumes proximity.  A proximity discovery (`addProx`) never
changes an existing hard edge; a hard discovery (`addHard`) records the
pair as hard whatever was there before; and once a pair is hard at any
point of a line-level run, every later point of the run — in particular
the final `DependencyMap` — still has it hard. -/
theorem claim_C8 :
    (∀ (st : AnalysisSt) (j i : Nat), st.depends j i = some DepKind.hard →
      (addProx st j i).depends j i = some DepKind.hard)
    ∧
    (∀ (st : AnalysisSt) (j i : Nat) (txt : Str),
      (addHard st j i txt).depends j i = some DepKind.hard)
    ∧
    (∀ (prox : Int) (revs : List RevInput) (n : Nat) (st : AnalysisSt)
      (ans : List (Str × FileAn)) (st2 : AnalysisSt) (ans2 : List (Str × FileAn)),
      byLineRunAux prox revs n st ans = Except.ok (st2, ans2) →
      ∀ (j i : Nat), st.depends j i = some DepKind.hard →
        st2.depends j i = some DepKind.hard) :=
  ⟨fun st j i h => addProx_preserves_hard st j i j i h,
   addHard_sets,
   fun prox revs n st ans st2 ans2 h j i hh =>
     byLineRunAux_preserves_hard prox revs n st ans st2 ans2 h j i hh⟩

/-- Witness for C8: a concrete hard edge (1, 0) survives a proximity
discovery for the same pair, a hard discovery records hard over an
existing proximity edge, and a concrete run started with the hard edge in
place ends with it still hard. -/
theorem claim_C8_witness :
    byLineRunAux 0 [⟨str "r", str "m", [str "x"]⟩] 0
        (addHard emptyAnalysis 1 0 (str "x")) [] =
      Except.ok (addHard emptyAnalysis 1 0 (str "x"), []) ∧
    (addProx (addHard emptyAnalysis 1 0 (str "x")) 1 0).depends 1 0 = some DepKind.hard ∧
    (addHard (addProx emptyAnalysis 1 0) 1 0 (str "x")).depends 1 0 = some DepKind.hard ∧
    (addHard emptyAnalysis 1 0 (str "x")).depends 1 0 = some DepKind.hard :=
  ⟨rfl,
   claim_C8.1 _ 1 0 (claim_C8.2.1 emptyAnalysis 1 0 (str "x")),
   claim_C8.2.1 _ 1 0 (str "x"),
   claim_C8.2.2 0 [⟨str "r", str "m", [str "x"]⟩] 0
     (addHard emptyAnalysis 1 0 (str "x")) [] (addHard emptyAnalysis 1 0 (str "x")) []
     rfl 1 0 (claim_C8.2.1 emptyAnalysis 1 0 (str "x"))⟩

/-! ### List-level helper lemmas for the C9 invariants -/

theorem mem_zinsert {l : List LineState} {i : Int} {a x : LineState}
    (h : x ∈ zinsert l i a) : x = a ∨ x ∈ l := by
  unfold zinsert at h
  exact (List.mem_insertIdx (by omega)).1 h

theorem mem_zerase {l : List LineState} {i : Int} {x : LineState}
    (h : x ∈ zerase l i) : x ∈ l :=
  List.eraseIdx_subset _ _ h

theorem zmodify_getq (l : List LineState) (i : Int) (f : LineState → LineState) (k : Nat) :
    (zmodify l i f).get? k =
      (fun a => if i.toNat = k then f a else a) <$> l.get? k := by
  unfold zmodify
  rw [List.get?_eq_getElem?, List.get?_eq_getElem?, List.getElem?_modify]

theorem mem_zmodify {l : List LineState} {i : Int} {f : LineState → LineState} {x : LineState}
    (h : x ∈ zmodify l i f) : x ∈ l ∨ ∃ y ∈ l, x = f y := by
  obtain ⟨n, hn⟩ := List.mem_iff_get.1 h
  have hk : (zmodify l i f).get? n.1 = some x := by
    rw [List.get?_eq_get n.2, hn]
  rw [zmodify_getq] at hk
  cases hy : l.get? n.1 with
  | none => rw [hy] at hk; cases hk
  | some y =>
    rw [hy] at hk
    simp only [Option.map_eq_map, Option.map_some] at hk
    have hmem : y ∈ l := List.get?_mem hy
    by_cases hik : i.toNat = n.1
    · rw [if_pos hik] at hk
      cases hk
      exact Or.inr ⟨y, hmem, rfl⟩
    · rw [if_neg hik] at hk
      cases hk
      exact Or.inl hmem

theorem zerase_getq (l : List LineState) (i : Int) (k : Nat) :
    (zerase l i).get? k = if k < i.toNat then l.get? k else l.get? (k + 1) := by
  unfold zerase
  rw [List.get?_eq_getElem?, List.getElem?_eraseIdx]
  split <;> rw [List.get?_eq_getElem?]

theorem getq_insertIdx (a : LineState) :
    ∀ (l : List LineState) (pos : Nat), pos ≤ l.length → ∀ (k : Nat),
      (l.insertIdx pos a).get? k =
        if k < pos then l.get? k else if k = pos then some a else l.get? (k - 1) := by
  intro l
  induction l with
  | nil =>
    intro pos hpos k
    have hp0 : pos = 0 := by simpa using hpos
    subst hp0
    cases k with
    | zero => simp [List.insertIdx]
    | succ k => simp [List.insertIdx]
  | cons y ys ih =>
    intro pos hpos k
    cases pos with
    | zero =>
      cases k with
      | zero => simp [List.insertIdx]
      | succ k => simp [List.insertIdx]
    | succ pos =>
      rw [List.insertIdx_succ_cons]
      cases k with
      | zero =>
        rw [List.get?_cons_zero, if_pos (by omega)]
        rfl
      | succ k =>
        rw [List.get?_cons_succ, ih pos (by simpa using hpos) k]
        by_cases h1 : k < pos
        · rw [if_pos h1, if_pos (show k + 1 < pos + 1 by omega), List.get?_cons_succ]
        · by_cases h2 : k = pos
          · rw [if_neg h1, if_pos h2, if_neg (show ¬ k + 1 < pos + 1 by omega),
              if_pos (show k + 1 = pos + 1 by omega)]
          · rw [if_neg h1, if_neg h2, if_neg (show ¬ k + 1 < pos + 1 by omega),
              if_neg (show ¬ k + 1 = pos + 1 by omega)]
            obtain ⟨k2, rfl⟩ : ∃ k2, k = k2 + 1 := ⟨k - 1, by omega⟩
            rw [show k2 + 1 + 1 - 1 = k2 + 1 by omega, List.get?_cons_succ]
            congr 1

theorem zinsert_getq (l : List LineState) (i : Int) (a : LineState) (k : Nat) :
    (zinsert l i a).get? k =
      if k < min i.toNat l.length then l.get? k
      else if k = min i.toNat l.length then some a
      else l.get? (k - 1) := by
  unfold zinsert
  exact getq_insertIdx a l (min i.toNat l.length) (by omega) k

/-! ### Invariant-transfer lemmas for the primitive list operations -/

theorem ownBelowL_mono {p : Nat} {l : List LineState} {b b2 : Int}
    (h : OwnBelowL p l b) (hb : b ≤ b2) : OwnBelowL p l b2 :=
  fun k ls hk hls => lt_of_lt_of_le (h k ls hk hls) hb

theorem ownBelowL_zinsert_nonowned {p : Nat} {l : List LineState} {i b : Int} {a : LineState}
    (h : OwnBelowL p l b) (ha : a.changed_by ≠ some p) :
    OwnBelowL p (zinsert l i a) (b + 1) := by
  intro k ls hk hls
  rw [zinsert_getq] at hk
  split at hk
  · have := h k ls hk hls
    omega
  · split at hk
    · cases hk
      exact absurd hls ha
    · have := h (k - 1) ls hk hls
      rename_i h1 h2
      omega

theorem ownBelowL_zinsert_high {p : Nat} {l : List LineState} {i b : Int} {a : LineState}
    (h : OwnBelowL p l b) (ha : a.changed_by ≠ some p) (hi : b ≤ i) :
    OwnBelowL p (zinsert l i a) b := by
  intro k ls hk hls
  rw [zinsert_getq] at hk
  split at hk
  · exact h k ls hk hls
  · split at hk
    · cases hk
      exact absurd hls ha
    · exfalso
      have hlt := h (k - 1) ls hk hls
      have hlen : k - 1 < l.length := by
        by_contra hc
        rw [List.get?_eq_none.2 (by omega)] at hk
        cases hk
      rename_i h1 h2
      omega

theorem ownBelowL_zerase_at {p : Nat} {l : List LineState} {b : Int}
    (h : OwnBelowL p l b) :
    OwnBelowL p (zerase l b) b := by
  intro k ls hk hls
  rw [zerase_getq] at hk
  split at hk
  · exact h k ls hk hls
  · have := h (k + 1) ls hk hls
    rename_i h1
    omega

theorem ownBelowL_zmodify {p : Nat} {l : List LineState} {i b : Int}
    {f : LineState → LineState} (hf : ∀ y, (f y).changed_by = y.changed_by)
    (h : OwnBelowL p l b) : OwnBelowL p (zmodify l i f) b := by
  intro k ls hk hls
  rw [zmodify_getq] at hk
  cases hy : l.get? k with
  | none => rw [hy] at hk; cases hk
  | some y =>
    rw [hy] at hk
    simp only [Option.map_eq_map, Option.map_some] at hk
    cases hk
    split at hls
    · exact h k y hy (by rw [← hf y]; exact hls)
    · exact h k y hy hls

theorem ownBelowL_mapIdx {p : Nat} {l : List LineState} {b : Int}
    {f : Nat → LineState → LineState} (hf : ∀ k y, (f k y).changed_by = y.changed_by)
    (h : OwnBelowL p l b) : OwnBelowL p (l.mapIdx f) b := by
  intro k ls hk hls
  rw [List.get?_eq_getElem?, List.getElem?_mapIdx] at hk
  cases hy : l.get? k with
  | none => rw [List.get?_eq_getElem?] at hy; rw [hy] at hk; cases hk
  | some y =>
    have hy2 := hy
    rw [List.get?_eq_getElem?] at hy2
    rw [hy2] at hk
    rw [show Option.map (f k) (some y) = some (f k y) from rfl] at hk
    cases hk
    exact h k y hy (by rw [← hf k y]; exact hls)

/-- The four kinds of states the analyzer ever inserts are fresh or owned
by the running patch; this bundles the bound needed for `MarksBoundL`. -/
theorem marksBoundL_zinsert {n : Nat} {l : List LineState} {i : Int} {a : LineState}
    (h : MarksBoundL n l) (ha : (∀ q, a.changed_by = some q → q < n) ∧ (∀ q ∈ a.proximity, q < n)) :
    MarksBoundL n (zinsert l i a) := by
  intro ls hm
  rcases mem_zinsert hm with rfl | hm2
  · exact ha
  · exact h ls hm2

theorem marksBoundL_zerase {n : Nat} {l : List LineState} {i : Int}
    (h : MarksBoundL n l) : MarksBoundL n (zerase l i) :=
  fun ls hm => h ls (mem_zerase hm)

theorem marksBoundL_zmodify_claimProx {n : Nat} {l : List LineState} {i : Int} {q : Nat}
    (h : MarksBoundL n l) (hq : q < n) :
    MarksBoundL n (zmodify l i (fun t => t.claimProx q)) := by
  intro ls hm
  rcases mem_zmodify hm with hm2 | ⟨y, hy, rfl⟩
  · exact h ls hm2
  · obtain ⟨h1, h2⟩ := h y hy
    unfold LineState.claimProx
    split
    · exact ⟨h1, h2⟩
    · refine ⟨h1, ?_⟩
      intro q2 hq2
      rcases List.mem_append.1 hq2 with hq3 | hq3
      · exact h2 q2 hq3
      · have hq4 : q2 = q := by simpa using hq3
        subst hq4
        exact hq

theorem marksBoundL_zmodify_line {n : Nat} {l : List LineState} {i : Int} {txt : Option Str}
    (h : MarksBoundL n l) :
    MarksBoundL n (zmodify l i (fun t => { t with line := txt })) := by
  intro ls hm
  rcases mem_zmodify hm with hm2 | ⟨y, hy, rfl⟩
  · exact h ls hm2
  · exact h y hy

theorem marksBoundL_mapIdx {n : Nat} {l : List LineState}
    {f : Nat → LineState → LineState}
    (hf : ∀ k y, (f k y).changed_by = y.changed_by ∧ (f k y).proximity = y.proximity)
    (h : MarksBoundL n l) : MarksBoundL n (l.mapIdx f) := by
  intro ls hm
  rcases List.mem_mapIdx.1 hm with ⟨k, hk, heq⟩
  obtain ⟨h1, h2⟩ := h (l.get ⟨k, hk⟩) (l.get_mem k hk)
  obtain ⟨hcb, hpx⟩ := hf k (l.get ⟨k, hk⟩)
  rw [show l.get ⟨k, hk⟩ = l[k] from rfl] at h1 h2 hcb hpx
  rw [heq] at hcb hpx
  exact ⟨fun q hq => h1 q (hcb ▸ hq), fun q hq => h2 q (hpx ▸ hq)⟩

theorem ownBelowL_zinsert_any {p : Nat} {l : List LineState} {i b : Int} {a : LineState}
    (h : OwnBelowL p l b) (hi : i ≤ b) (h0 : 0 ≤ i) :
    OwnBelowL p (zinsert l i a) (b + 1) := by
  intro k ls hk hls
  rw [zinsert_getq] at hk
  split at hk
  · have := h k ls hk hls
    omega
  · split at hk
    · rename_i h1 h2
      omega
    · have := h (k - 1) ls hk hls
      rename_i h1 h2
      omega

theorem marksBoundL_mono {n n2 : Nat} {l : List LineState}
    (h : MarksBoundL n l) (hn : n ≤ n2) : MarksBoundL n2 l := by
  intro ls hm
  obtain ⟨h1, h2⟩ := h ls hm
  exact ⟨fun q hq => lt_of_lt_of_le (h1 q hq) hn,
         fun q hq => lt_of_lt_of_le (h2 q hq) hn⟩

theorem lineStateScan_ge (lineno : Int) :
    ∀ (l : List LineState) (idx : Int), idx ≤ (lineStateScan lineno l idx).1 := by
  intro l
  induction l with
  | nil => intro idx; simp [lineStateScan]
  | cons s rest ih =>
    intro idx
    unfold lineStateScan
    split
    · simp
    · split
      · exact le_trans (by omega) (ih (idx + 1))
      · simp

/-- `line_state` keeps the mark bound and the no-own-above-cursor
invariant, moving the cursor forward; it never touches the window, the
boundary or the offset. -/
theorem line_state_inv (fa : FileAn) (lineno : Int) (create : Bool) (p n : Nat)
    (hm : MarksBoundL n fa.line_list)
    (ho : OwnBelowL p fa.line_list (fa.processed_idx + 1)) :
    MarksBoundL n (fa.line_state lineno create).1.line_list ∧
    OwnBelowL p (fa.line_state lineno create).1.line_list
      (fa.line_state lineno create).1.processed_idx ∧
    fa.processed_idx + 1 ≤ (fa.line_state lineno create).1.processed_idx ∧
    (fa.line_state lineno create).1.proximity = fa.proximity ∧
    (fa.line_state lineno create).1.to_update_idx = fa.to_update_idx ∧
    (fa.line_state lineno create).1.offset = fa.offset := by
  have hge := lineStateScan_ge lineno (fa.line_list.drop (fa.processed_idx + 1).toNat)
    (fa.processed_idx + 1)
  unfold FileAn.line_state
  dsimp only
  rcases hsc : lineStateScan lineno (fa.line_list.drop (fa.processed_idx + 1).toNat)
    (fa.processed_idx + 1) with ⟨pi, found⟩
  rw [hsc] at hge
  dsimp only at hge ⊢
  cases found with
  | true =>
    rw [if_pos rfl]
    exact ⟨hm, ownBelowL_mono ho hge, hge, rfl, rfl, rfl⟩
  | false =>
    rw [if_neg (by simp)]
    cases create with
    | true =>
      rw [if_pos rfl]
      refine ⟨marksBoundL_zinsert hm (by simp), ?_, hge, rfl, rfl, rfl⟩
      exact ownBelowL_mono (ownBelowL_zinsert_high ho (by simp) hge) hge
    | false =>
      rw [if_neg (by simp)]
      exact ⟨hm, ownBelowL_mono ho hge, hge, rfl, rfl, rfl⟩

/-- `update_offset` renumbers only; both invariants survive and the
cursor is unchanged. -/
theorem update_offset_inv (fa : FileAn) (amount : Int) (p n : Nat) (b : Int)
    (hm : MarksBoundL n fa.line_list) (ho : OwnBelowL p fa.line_list b) :
    MarksBoundL n (fa.update_offset amount).line_list ∧
    OwnBelowL p (fa.update_offset amount).line_list b ∧
    (fa.update_offset amount).processed_idx = fa.processed_idx ∧
    (fa.update_offset amount).proximity = fa.proximity := by
  unfold FileAn.update_offset
  refine ⟨marksBoundL_mapIdx ?_ hm, ownBelowL_mapIdx ?_ ho, rfl, rfl⟩
  · intro k y
    constructor <;> (dsimp only; split <;> rfl)
  · intro k y
    dsimp only
    split <;> rfl

theorem claimProx_changed_by (y : LineState) (q : Nat) :
    (y.claimProx q).changed_by = y.changed_by := by
  unfold LineState.claimProx
  split <;> rfl

/-- The backward claim loop keeps both invariants: it inserts only fresh
states (bumping the cursor in lockstep) and adds only the running patch
to proximity sets. -/
theorem claimBeforeAux_inv (p n : Nat) (hp : p < n) :
    ∀ (fuel : Nat) (fa : FileAn) (i lineno : Int) (fa2 : FileAn),
      claimBeforeAux p fuel fa i lineno = Except.ok fa2 →
      MarksBoundL n fa.line_list →
      OwnBelowL p fa.line_list fa.processed_idx →
      MarksBoundL n fa2.line_list ∧
      OwnBelowL p fa2.line_list fa2.processed_idx ∧
      fa2.proximity = fa.proximity ∧
      fa2.to_update_idx = fa.to_update_idx ∧
      fa2.offset = fa.offset ∧
      fa.processed_idx ≤ fa2.processed_idx := by
  intro fuel
  induction fuel with
  | zero =>
    intro fa i lineno fa2 h hm ho
    unfold claimBeforeAux at h
    cases h
    exact ⟨hm, ho, rfl, rfl, rfl, le_refl _⟩
  | succ fuel ih =>
    intro fa i lineno fa2 h hm ho
    unfold claimBeforeAux at h
    split at h
    · dsimp only at h
      split at h
      · cases h
      · rename_i stepres fam i2 hstep
        -- facts about the successful step
        have hfam : MarksBoundL n fam.line_list ∧ OwnBelowL p fam.line_list fam.processed_idx ∧
            fam.proximity = fa.proximity ∧ fam.to_update_idx = fa.to_update_idx ∧
            fam.offset = fa.offset ∧ fa.processed_idx ≤ fam.processed_idx := by
          revert hstep
          split
          · split
            · intro hstep
              cases hstep
            · intro hstep
              cases hstep
              refine ⟨marksBoundL_zinsert hm (by simp),
                ownBelowL_zinsert_nonowned ho (by simp), rfl, rfl, rfl, by dsimp only; omega⟩
          · split
            · intro hstep
              cases hstep
            · split
              · split
                · intro hstep
                  cases hstep
                · intro hstep
                  cases hstep
                  refine ⟨marksBoundL_zinsert hm (by simp),
                    ownBelowL_zinsert_nonowned ho (by simp), rfl, rfl, rfl, by dsimp only; omega⟩
              · intro hstep
                cases hstep
                exact ⟨hm, ho, rfl, rfl, rfl, le_refl _⟩
        obtain ⟨hm2, ho2, he1, he2, he3, he4⟩ := hfam
        split at h
        · cases h
        · split at h
          · cases h
            exact ⟨hm2, ho2, he1, he2, he3, he4⟩
          · have hrec := ih _ _ _ _ h
              (marksBoundL_zmodify_claimProx hm2 hp)
              (ownBelowL_zmodify (fun y => claimProx_changed_by y p) ho2)
            obtain ⟨r1, r2, r3, r4, r5, r6⟩ := hrec
            exact ⟨r1, r2, r3.trans he1, r4.trans he2, r5.trans he3, le_trans he4 r6⟩
    · cases h
      exact ⟨hm, ho, rfl, rfl, rfl, le_refl _⟩

/-- The forward claim loop keeps both invariants, never moving the cursor
or the boundary; its inserts land strictly above the cursor (asserted), so
the loose bound survives. -/
theorem claimAfterAux_inv (p n : Nat) (hp : p < n) :
    ∀ (fuel : Nat) (fa : FileAn) (i lineno : Int) (fa2 : FileAn),
      claimAfterAux p fuel fa i lineno = Except.ok fa2 →
      MarksBoundL n fa.line_list →
      OwnBelowL p fa.line_list (fa.processed_idx + 1) →
      MarksBoundL n fa2.line_list ∧
      OwnBelowL p fa2.line_list (fa2.processed_idx + 1) ∧
      fa2.proximity = fa.proximity ∧
      fa2.to_update_idx = fa.to_update_idx ∧
      fa2.offset = fa.offset ∧
      fa2.processed_idx = fa.processed_idx := by
  intro fuel
  induction fuel with
  | zero =>
    intro fa i lineno fa2 h hm ho
    unfold claimAfterAux at h
    cases h
    exact ⟨hm, ho, rfl, rfl, rfl, rfl⟩
  | succ fuel ih =>
    intro fa i lineno fa2 h hm ho
    unfold claimAfterAux at h
    dsimp only at h
    split at h
    · cases h
    · rename_i fam hstep
      have hfam : MarksBoundL n fam.line_list ∧ OwnBelowL p fam.line_list (fam.processed_idx + 1) ∧
          fam.proximity = fa.proximity ∧ fam.to_update_idx = fa.to_update_idx ∧
          fam.offset = fa.offset ∧ fam.processed_idx = fa.processed_idx := by
        revert hstep
        split
        · split
          · intro hstep
            cases hstep
          · intro hstep
            cases hstep
            rename_i hlen hass
            refine ⟨marksBoundL_zinsert hm (by simp),
              ownBelowL_zinsert_high ho (by simp) (by dsimp only; omega), rfl, rfl, rfl, rfl⟩
        · split
          · intro hstep
            cases hstep
          · split
            · split
              · intro hstep
                cases hstep
              · intro hstep
                cases hstep
                rename_i hass
                refine ⟨marksBoundL_zinsert hm (by simp),
                  ownBelowL_zinsert_high ho (by simp) (by dsimp only; omega), rfl, rfl, rfl, rfl⟩
            · intro hstep
              cases hstep
              exact ⟨hm, ho, rfl, rfl, rfl, rfl⟩
      obtain ⟨hm2, ho2, he1, he2, he3, he4⟩ := hfam
      have hrec := ih _ _ _ _ h
        (marksBoundL_zmodify_claimProx hm2 hp)
        (ownBelowL_zmodify (fun y => claimProx_changed_by y p) ho2)
      obtain ⟨r1, r2, r3, r4, r5, r6⟩ := hrec
      exact ⟨r1, r2, r3.trans he1, r4.trans he2, r5.trans he3, r6.trans he4⟩

theorem zget_mem {l : List LineState} {i : Int} {ls : LineState}
    (h : zget l i = some ls) : ls ∈ l := by
  unfold zget at h
  split at h
  · exact List.get?_mem h
  · cases h

theorem zget_nonneg {l : List LineState} {i : Int} {ls : LineState}
    (h : zget l i = some ls) : 0 ≤ i := by
  unfold zget at h
  split at h
  · assumption
  · cases h

/-- Under the strict bound, the state at the cursor is not owned by the
running patch. -/
theorem ownBelow_at_cursor {p : Nat} {l : List LineState} {b : Int} {ls : LineState}
    (ho : OwnBelowL p l b) (h : zget l b = some ls) : ls.changed_by ≠ some p := by
  intro hc
  have h0 := zget_nonneg h
  unfold zget at h
  rw [if_pos h0] at h
  have := ho b.toNat ls h hc
  omega

theorem addHard_edges (st : AnalysisSt) (a b : Nat) (txt : Str) (j i : Nat)
    (h : (addHard st a b txt).depends j i ≠ none) :
    st.depends j i ≠ none ∨ (j = a ∧ i = b) := by
  by_cases hji : j = a ∧ i = b
  · exact Or.inr hji
  · left
    unfold addHard setDep at h
    dsimp only at h
    rw [if_neg hji] at h
    exact h

theorem addProx_edges (st : AnalysisSt) (a b : Nat) (j i : Nat)
    (h : (addProx st a b).depends j i ≠ none) :
    st.depends j i ≠ none ∨ (j = a ∧ i = b ∧ b ≠ a) := by
  unfold addProx at h
  split at h
  · rename_i hc
    by_cases hji : j = a ∧ i = b
    · exact Or.inr ⟨hji.1, hji.2, hc.2⟩
    · left
      dsimp only [setDep] at h
      rw [if_neg hji] at h
      exact h
  · exact Or.inl h

theorem foldl_addProx_edges (a : Nat) (l : List Nat) :
    ∀ (st : AnalysisSt) (j i : Nat),
      ((l.foldl (fun acc p => addProx acc a p) st).depends j i ≠ none) →
      st.depends j i ≠ none ∨ (j = a ∧ i ∈ l ∧ i ≠ a) := by
  induction l with
  | nil =>
    intro st j i h
    exact Or.inl h
  | cons x xs ih =>
    intro st j i h
    rcases ih (addProx st a x) j i h with h2 | h2
    · rcases addProx_edges st a x j i h2 with h3 | h3
      · exact Or.inl h3
      · exact Or.inr ⟨h3.1, by simp [h3.2.1], h3.2.1 ▸ h3.2.2⟩
    · exact Or.inr ⟨h2.1, by simp [h2.2.1], h2.2.2⟩

/-- The context branch: it touches only the located state's text; it emits
nothing and keeps the invariants. -/
theorem contextStep_inv (st : AnalysisSt) (fa : FileAn) (change : Change)
    (st2 : AnalysisSt) (fa2 : FileAn) (p n : Nat)
    (h : contextStep st fa change = Except.ok (st2, fa2))
    (hm : MarksBoundL n fa.line_list)
    (ho : OwnBelowL p fa.line_list fa.processed_idx) :
    st2 = st ∧ MarksBoundL n fa2.line_list ∧
    OwnBelowL p fa2.line_list fa2.processed_idx ∧
    fa2.processed_idx = fa.processed_idx ∧ fa2.proximity = fa.proximity := by
  unfold contextStep at h
  split at h
  · cases h
  · split at h
    · cases h
      exact ⟨rfl, marksBoundL_zmodify_line hm,
        ownBelowL_zmodify (fun y => rfl) ho, rfl, rfl⟩
    · cases h
      exact ⟨rfl, hm, ho, rfl, rfl⟩

/-- The add branch: the inserted state is owned by the running patch and
lands at the cursor; inherited dependencies go through the guarded
`addProx`, so every new edge has the running patch as source and a
strictly earlier patch as target. -/
theorem addStep_inv (st : AnalysisSt) (fa : FileAn) (patch : Patch) (change : Change)
    (found : Bool) (st2 : AnalysisSt) (fa2 : FileAn)
    (h : addStep st fa patch change found = Except.ok (st2, fa2))
    (hm : MarksBoundL (patch.number + 1) fa.line_list)
    (ho : OwnBelowL patch.number fa.line_list fa.processed_idx)
    (h0 : 0 ≤ fa.processed_idx) :
    MarksBoundL (patch.number + 1) fa2.line_list ∧
    OwnBelowL patch.number fa2.line_list (fa2.processed_idx + 1) ∧
    fa2.processed_idx = fa.processed_idx ∧ fa2.proximity = fa.proximity ∧
    (∀ j i, st2.depends j i ≠ none →
      st.depends j i ≠ none ∨ (j = patch.number ∧ i < patch.number)) := by
  obtain ⟨hmU, hoU, hpU, hxU⟩ :=
    update_offset_inv fa 1 patch.number (patch.number + 1) fa.processed_idx hm ho
  have hmIns : MarksBoundL (patch.number + 1)
      (zinsert (fa.update_offset 1).line_list (fa.update_offset 1).processed_idx
        (LineState.mk change.target_lineno_abs change.target_line (some patch.number) [])) := by
    refine marksBoundL_zinsert hmU ⟨?_, ?_⟩
    · intro q hq
      cases hq
      omega
    · intro q hq
      cases hq
  have hoIns : OwnBelowL patch.number
      (zinsert (fa.update_offset 1).line_list (fa.update_offset 1).processed_idx
        (LineState.mk change.target_lineno_abs change.target_line (some patch.number) []))
      (fa.processed_idx + 1) := by
    refine ownBelowL_zinsert_any hoU ?_ ?_
    · rw [hpU]
    · rw [hpU]
      exact h0
  unfold addStep at h
  dsimp only at h
  by_cases hfound : found = true
  · rw [if_pos hfound] at h
    cases hls : zget fa.line_list fa.processed_idx with
    | none =>
      rw [hls] at h
      dsimp only at h
      cases h
    | some ls =>
      rw [hls] at h
      dsimp only at h
      split at h
      · cases h
        refine ⟨hmIns, ?_, by try dsimp only; exact hpU, by try dsimp only; exact hxU, ?_⟩
        · try dsimp only
          rw [hpU]
          exact hoIns
        · intro j i hji
          try dsimp only at hji
          rcases foldl_addProx_edges patch.number (ls.proximity ++ ls.changed_by.toList)
            st j i hji with h2 | h2
          · exact Or.inl h2
          · right
            refine ⟨h2.1, ?_⟩
            obtain ⟨hb1, hb2⟩ := hm ls (zget_mem hls)
            rcases List.mem_append.1 h2.2.1 with hi | hi
            · have := hb2 i hi
              have := h2.2.2
              omega
            · cases hcb : ls.changed_by with
              | none =>
                rw [hcb] at hi
                cases hi
              | some q =>
                rw [hcb] at hi
                have hq : i = q := by simpa using hi
                subst hq
                have := hb1 i hcb
                have := h2.2.2
                omega
      · cases h
  · rw [if_neg hfound] at h
    dsimp only at h
    split at h
    · cases h
      refine ⟨hmIns, ?_, by try dsimp only; exact hpU, by try dsimp only; exact hxU, ?_⟩
      · try dsimp only
        rw [hpU]
        exact hoIns
      · intro j i hji
        exact Or.inl hji
    · cases h

/-- The delete branch: the located state is never owned by the running
patch (strict cursor bound), so the hard edge targets a strictly earlier
patch; proximity edges go through the guarded `addProx`; erasing the
located state restores the loose bound for the decremented cursor. -/
theorem deleteStep_inv (st : AnalysisSt) (fa : FileAn) (patch : Patch) (change : Change)
    (st2 : AnalysisSt) (fa2 : FileAn)
    (h : deleteStep st fa patch change = Except.ok (st2, fa2))
    (hm : MarksBoundL (patch.number + 1) fa.line_list)
    (ho : OwnBelowL patch.number fa.line_list fa.processed_idx) :
    MarksBoundL (patch.number + 1) fa2.line_list ∧
    OwnBelowL patch.number fa2.line_list (fa2.processed_idx + 1) ∧
    fa2.processed_idx = fa.processed_idx - 1 ∧ fa2.proximity = fa.proximity ∧
    (∀ j i, st2.depends j i ≠ none →
      st.depends j i ≠ none ∨ (j = patch.number ∧ i < patch.number)) := by
  obtain ⟨hmU, hoU, hpU, hxU⟩ :=
    update_offset_inv fa (-1) patch.number (patch.number + 1) fa.processed_idx hm ho
  unfold deleteStep at h
  dsimp only at h
  cases hls : zget (fa.update_offset (-1)).line_list (fa.update_offset (-1)).processed_idx with
  | none =>
    rw [hls] at h
    cases h
  | some ls =>
    rw [hls] at h
    dsimp only at h
    have hmem := zget_mem hls
    obtain ⟨hb1, hb2⟩ := hmU ls hmem
    have hnotown : ls.changed_by ≠ some patch.number := by
      have h1 : OwnBelowL patch.number (fa.update_offset (-1)).line_list
          (fa.update_offset (-1)).processed_idx := by
        rw [hpU]
        exact hoU
      exact ownBelow_at_cursor h1 hls
    have herase : OwnBelowL patch.number
        (zerase (fa.update_offset (-1)).line_list (fa.update_offset (-1)).processed_idx)
        (fa.update_offset (-1)).processed_idx := by
      rw [hpU]
      exact ownBelowL_zerase_at hoU
    split at h
    · cases h
    · rename_i stmid hmid
      cases h
      have hedge1 : ∀ j i, stmid.depends j i ≠ none →
          st.depends j i ≠ none ∨ (j = patch.number ∧ i < patch.number) := by
        intro j i hji
        revert hmid
        cases hcb : ls.changed_by with
        | none =>
          intro hmid
          cases hmid
          exact Or.inl hji
        | some owner =>
          cases hsl : change.source_line with
          | none =>
            intro hmid
            cases hmid
          | some txt =>
            intro hmid
            cases hmid
            rcases addHard_edges st patch.number owner txt j i hji with h2 | h2
            · exact Or.inl h2
            · right
              refine ⟨h2.1, ?_⟩
              have hlt := hb1 owner hcb
              have hne : owner ≠ patch.number := by
                intro he
                exact hnotown (he ▸ hcb)
              omega
      refine ⟨marksBoundL_zerase hmU, ?_, by try dsimp only; rw [hpU], by try dsimp only; exact hxU, ?_⟩
      · try dsimp only
        have : (fa.update_offset (-1)).processed_idx - 1 + 1 =
            (fa.update_offset (-1)).processed_idx := by omega
        rw [this]
        exact herase
      · intro j i hji
        try dsimp only at hji
        rcases foldl_addProx_edges patch.number ls.proximity stmid j i hji with h2 | h2
        · exact hedge1 j i h2
        · right
          refine ⟨h2.1, ?_⟩
          have := hb2 i h2.2.1
          have := h2.2.2
          omega

/-- One change keeps the mark bound and the loose cursor bound, keeps the
cursor at least -1, and adds only edges from the running patch to strictly
earlier patches. -/
theorem processChange_inv (st : AnalysisSt) (fa : FileAn) (patch : Patch) (change : Change)
    (st2 : AnalysisSt) (fa2 : FileAn)
    (h : processChange st fa patch change = Except.ok (st2, fa2))
    (hm : MarksBoundL (patch.number + 1) fa.line_list)
    (ho : OwnBelowL patch.number fa.line_list (fa.processed_idx + 1))
    (hpr : -1 ≤ fa.processed_idx) :
    MarksBoundL (patch.number + 1) fa2.line_list ∧
    OwnBelowL patch.number fa2.line_list (fa2.processed_idx + 1) ∧
    -1 ≤ fa2.processed_idx ∧
    (∀ j i, st2.depends j i ≠ none →
      st.depends j i ≠ none ∨ (j = patch.number ∧ i < patch.number)) := by
  have hp : patch.number < patch.number + 1 := by omega
  obtain ⟨hm1, ho1, hge1, hx1, ht1, hof1⟩ :=
    line_state_inv fa change.source_lineno_abs (decide (change.action ≠ '+'))
      patch.number (patch.number + 1) hm ho
  unfold processChange at h
  dsimp only at h
  split at h
  · cases h
  · rename_i fa3 heqb
    have hfa3 : MarksBoundL (patch.number + 1) fa3.line_list ∧
        OwnBelowL patch.number fa3.line_list fa3.processed_idx ∧
        0 ≤ fa3.processed_idx := by
      revert heqb
      split
      · intro heqb
        unfold FileAn.claimBefore at heqb
        obtain ⟨r1, r2, r3, r4, r5, r6⟩ :=
          claimBeforeAux_inv patch.number (patch.number + 1) hp _ _ _ _ _ heqb hm1 ho1
        exact ⟨r1, r2, by omega⟩
      · intro heqb
        cases heqb
        exact ⟨hm1, ho1, by omega⟩
    obtain ⟨hm3, ho3, hpr3⟩ := hfa3
    split at h
    · cases h
    · split at h
      · cases h
      · rename_i stb fab heqbr
        have hfab : MarksBoundL (patch.number + 1) fab.line_list ∧
            OwnBelowL patch.number fab.line_list (fab.processed_idx + 1) ∧
            -1 ≤ fab.processed_idx ∧
            (∀ j i, stb.depends j i ≠ none →
              st.depends j i ≠ none ∨ (j = patch.number ∧ i < patch.number)) := by
          revert heqbr
          split
          · intro heqbr
            obtain ⟨c1, c2, c3, c4, c5⟩ :=
              contextStep_inv st fa3 change stb fab patch.number (patch.number + 1)
                heqbr hm3 ho3
            refine ⟨c2, ownBelowL_mono c3 (by omega), by omega, ?_⟩
            intro j i hji
            rw [c1] at hji
            exact Or.inl hji
          · split
            · intro heqbr
              obtain ⟨a1, a2, a3, a4, a5⟩ :=
                addStep_inv st fa3 patch change _ stb fab heqbr hm3 ho3 hpr3
              exact ⟨a1, a2, by omega, a5⟩
            · split
              · intro heqbr
                obtain ⟨d1, d2, d3, d4, d5⟩ :=
                  deleteStep_inv st fa3 patch change stb fab heqbr hm3 ho3
                exact ⟨d1, d2, by omega, d5⟩
              · intro heqbr
                cases heqbr
                refine ⟨hm3, ownBelowL_mono ho3 (by omega), by omega, ?_⟩
                intro j i hji
                exact Or.inl hji
        obtain ⟨hmb, hob, hprb, hedb⟩ := hfab
        split at h
        · cases h
        · rename_i fa4 heqa
          have hfa4 : MarksBoundL (patch.number + 1) fa4.line_list ∧
              OwnBelowL patch.number fa4.line_list (fa4.processed_idx + 1) ∧
              -1 ≤ fa4.processed_idx := by
            revert heqa
            split
            · intro heqa
              unfold FileAn.claimAfter at heqa
              obtain ⟨r1, r2, r3, r4, r5, r6⟩ :=
                claimAfterAux_inv patch.number (patch.number + 1) hp _ _ _ _ _ heqa hmb hob
              exact ⟨r1, r2, by omega⟩
            · intro heqa
              cases heqa
              exact ⟨hmb, hob, hprb⟩
          cases h
          exact ⟨hfa4.1, hfa4.2.1, hfa4.2.2, hedb⟩

theorem processChanges_inv (patch : Patch) (cs : List Change) :
    ∀ (st : AnalysisSt) (fa : FileAn) (st2 : AnalysisSt) (fa2 : FileAn),
      processChanges patch st fa cs = Except.ok (st2, fa2) →
      MarksBoundL (patch.number + 1) fa.line_list →
      OwnBelowL patch.number fa.line_list (fa.processed_idx + 1) →
      -1 ≤ fa.processed_idx →
      MarksBoundL (patch.number + 1) fa2.line_list ∧
      OwnBelowL patch.number fa2.line_list (fa2.processed_idx + 1) ∧
      -1 ≤ fa2.processed_idx ∧
      (∀ j i, st2.depends j i ≠ none →
        st.depends j i ≠ none ∨ (j = patch.number ∧ i < patch.number)) := by
  induction cs with
  | nil =>
    intro st fa st2 fa2 h hm ho hpr
    cases h
    exact ⟨hm, ho, hpr, fun j i hji => Or.inl hji⟩
  | cons c cs ih =>
    intro st fa st2 fa2 h hm ho hpr
    unfold processChanges at h
    split at h
    · cases h
    · rename_i stm fam hstep
      obtain ⟨m1, m2, m3, m4⟩ := processChange_inv st fa patch c stm fam hstep hm ho hpr
      obtain ⟨r1, r2, r3, r4⟩ := ih stm fam st2 fa2 h m1 m2 m3
      refine ⟨r1, r2, r3, ?_⟩
      intro j i hji
      rcases r4 j i hji with h2 | h2
      · exact m4 j i h2
      · exact Or.inr h2

theorem analyzeHunks_inv (patch : Patch) (hs : List Hunk) :
    ∀ (st : AnalysisSt) (fa : FileAn) (st2 : AnalysisSt) (fa2 : FileAn),
      analyzeHunks patch st fa hs = Except.ok (st2, fa2) →
      MarksBoundL (patch.number + 1) fa.line_list →
      OwnBelowL patch.number fa.line_list (fa.processed_idx + 1) →
      -1 ≤ fa.processed_idx →
      MarksBoundL (patch.number + 1) fa2.line_list ∧
      OwnBelowL patch.number fa2.line_list (fa2.processed_idx + 1) ∧
      -1 ≤ fa2.processed_idx ∧
      (∀ j i, st2.depends j i ≠ none →
        st.depends j i ≠ none ∨ (j = patch.number ∧ i < patch.number)) := by
  induction hs with
  | nil =>
    intro st fa st2 fa2 h hm ho hpr
    cases h
    exact ⟨hm, ho, hpr, fun j i hji => Or.inl hji⟩
  | cons hk hs ih =>
    intro st fa st2 fa2 h hm ho hpr
    unfold analyzeHunks at h
    split at h
    · cases h
    · rename_i stm fam hstep
      obtain ⟨m1, m2, m3, m4⟩ :=
        processChanges_inv patch hk.changes st fa stm fam hstep hm ho hpr
      obtain ⟨r1, r2, r3, r4⟩ := ih stm fam st2 fa2 h m1 m2 m3
      refine ⟨r1, r2, r3, ?_⟩
      intro j i hji
      rcases r4 j i hji with h2 | h2
      · exact m4 j i h2
      · exact Or.inr h2

/-- A whole `analyze` call for one revision on one file: with every
pre-existing mark strictly earlier than the revision, the final marks are
bounded by the next revision and every new edge runs from this revision to
a strictly earlier one. -/
theorem analyze_inv (fa : FileAn) (st : AnalysisSt) (patch : Patch) (hs : List Hunk)
    (st2 : AnalysisSt) (fa2 : FileAn)
    (h : fa.analyze st patch hs = Except.ok (st2, fa2))
    (hm : MarksBoundL patch.number fa.line_list) :
    MarksBoundL (patch.number + 1) fa2.line_list ∧
    (∀ j i, st2.depends j i ≠ none →
      st.depends j i ≠ none ∨ (j = patch.number ∧ i < patch.number)) := by
  have hm0 : MarksBoundL (patch.number + 1) fa.line_list := marksBoundL_mono hm (by omega)
  have ho0 : OwnBelowL patch.number fa.line_list 0 := by
    intro k ls hk hls
    obtain ⟨b1, _⟩ := hm ls (List.get?_mem hk)
    have := b1 patch.number hls
    omega
  unfold FileAn.analyze at h
  dsimp only at h
  split at h
  · cases h
  · rename_i stm fam hsteps
    cases h
    obtain ⟨r1, r2, r3, r4⟩ := analyzeHunks_inv patch hs st _ st2 fam hsteps hm0
      (by refine ownBelowL_mono ho0 ?_; show (0 : Int) ≤ -1 + 1; omega)
      (by show (-1 : Int) ≤ -1; omega)
    refine ⟨?_, r4⟩
    have hoTriv : OwnBelowL patch.number fam.line_list (fam.line_list.length : Int) := by
      intro k ls hk hls
      have hlt : k < fam.line_list.length := by
        by_contra hge
        rw [List.get?_eq_none.mpr (by omega)] at hk
        cases hk
      exact_mod_cast hlt
    exact (update_offset_inv
      { fam with processed_idx := (fam.line_list.length : Int) } 0 patch.number
      (patch.number + 1) (fam.line_list.length : Int) r1 hoTriv).1

theorem lookupAnalyzer_update_eq (ans : List (Str × FileAn)) (path : Str) (fa : FileAn) :
    lookupAnalyzer (updateAnalyzer ans path fa) path = some fa := by
  induction ans with
  | nil => simp [updateAnalyzer, lookupAnalyzer]
  | cons p rest ih =>
    obtain ⟨q, old⟩ := p
    unfold updateAnalyzer
    by_cases hq : q = path
    · rw [if_pos hq]
      unfold lookupAnalyzer
      rw [if_pos hq]
    · rw [if_neg hq]
      unfold lookupAnalyzer
      rw [if_neg hq]
      exact ih

theorem lookupAnalyzer_update_ne (ans : List (Str × FileAn)) (path path2 : Str) (fa : FileAn)
    (hne : path ≠ path2) :
    lookupAnalyzer (updateAnalyzer ans path fa) path2 = lookupAnalyzer ans path2 := by
  induction ans with
  | nil =>
    simp only [updateAnalyzer, lookupAnalyzer]
    rw [if_neg hne]
  | cons p rest ih =>
    obtain ⟨q, old⟩ := p
    unfold updateAnalyzer
    by_cases hq : q = path
    · rw [if_pos hq]
      unfold lookupAnalyzer
      subst hq
      rw [if_neg hne, if_neg hne]
    · rw [if_neg hq]
      unfold lookupAnalyzer
      by_cases hq2 : q = path2
      · rw [if_pos hq2, if_pos hq2]
      · rw [if_neg hq2, if_neg hq2]
        exact ih

/-- One revision of the line-level analyzer over its parsed files: with
distinct paths, analyzers not yet touched by this revision bounded by the
revision number and all analyzers bounded by the next number, the output
table is bounded by the next number and every new edge runs from this
revision to a strictly earlier one. -/
theorem byLinePatch_inv (prox : Int) (files : List PatchedFile) :
    ∀ (st : AnalysisSt) (ans : List (Str × FileAn)) (patch : Patch)
      (st2 : AnalysisSt) (ans2 : List (Str × FileAn)),
      byLinePatch prox st ans patch files = Except.ok (st2, ans2) →
      (files.map PatchedFile.path).Nodup →
      (∀ f ∈ files, ∀ fa, lookupAnalyzer ans f.path = some fa →
        MarksBoundL patch.number fa.line_list) →
      AnsBound (patch.number + 1) ans →
      AnsBound (patch.number + 1) ans2 ∧
      (∀ j i, st2.depends j i ≠ none →
        st.depends j i ≠ none ∨ (j = patch.number ∧ i < patch.number)) := by
  induction files with
  | nil =>
    intro st ans patch st2 ans2 h _ _ hb
    cases h
    exact ⟨hb, fun j i hji => Or.inl hji⟩
  | cons f fs ih =>
    intro st ans patch st2 ans2 h hnd hf hb
    unfold byLinePatch at h
    dsimp only at h
    split at h
    · cases h
    · rename_i stm fam hstep
      have hmf : MarksBoundL patch.number
          ((lookupAnalyzer ans f.path).getD (newFileAn f.path prox)).line_list := by
        cases hl : lookupAnalyzer ans f.path with
        | none =>
          intro ls hls
          simp [newFileAn] at hls
        | some fa0 => exact hf f (List.mem_cons_self f fs) fa0 hl
      obtain ⟨r1, r2⟩ := analyze_inv _ st patch f.hunks stm fam hstep hmf
      have hnds := List.nodup_cons.mp hnd
      obtain ⟨s1, s2⟩ := ih stm (updateAnalyzer ans f.path fam) patch st2 ans2 h hnds.2
        (by
          intro f2 hf2 fa0 hl
          have hne : f.path ≠ f2.path := by
            intro hEq
            exact hnds.1 (hEq ▸ List.mem_map_of_mem PatchedFile.path hf2)
          rw [lookupAnalyzer_update_ne ans f.path f2.path fam hne] at hl
          exact hf f2 (List.mem_cons_of_mem f hf2) fa0 hl)
        (by
          intro pa fa0 hl
          by_cases hpa : f.path = pa
          · subst hpa
            rw [lookupAnalyzer_update_eq ans f.path fam] at hl
            cases hl
            exact r1
          · rw [lookupAnalyzer_update_ne ans f.path pa fam hpa] at hl
            exact hb pa fa0 hl)
      refine ⟨s1, ?_⟩
      intro j i hji
      rcases s2 j i hji with h2 | h2
      · exact r2 j i h2
      · exact Or.inr h2

/-- The line-level run over a revision suffix: starting at revision number
`n` with bounded analyzer marks and strictly backward edges below `n`, the
final map has strictly backward edges below `n` plus the number of
revisions. -/
theorem byLineRunAux_inv (prox : Int) (revs : List RevInput) :
    ∀ (n : Nat) (st : AnalysisSt) (ans : List (Str × FileAn))
      (st2 : AnalysisSt) (ans2 : List (Str × FileAn)),
      byLineRunAux prox revs n st ans = Except.ok (st2, ans2) →
      revs.all pathsNodup = true →
      AnsBound n ans →
      DepStrict n st →
      DepStrict (n + revs.length) st2 := by
  induction revs with
  | nil =>
    intro n st ans st2 ans2 h _ _ hd
    cases h
    simpa using hd
  | cons r rest ih =>
    intro n st ans st2 ans2 h hnd hb hd
    rw [List.all_cons, Bool.and_eq_true] at hnd
    obtain ⟨hnd1, hndtl⟩ := hnd
    unfold byLineRunAux at h
    split at h
    · cases h
    · rename_i files hparse
      split at h
      · cases h
      · rename_i stm ansm hstep
        have hndr : (files.map PatchedFile.path).Nodup := by
          unfold pathsNodup at hnd1
          rw [hparse] at hnd1
          exact of_decide_eq_true hnd1
        have hpn : (patchOf n r).number = n := rfl
        obtain ⟨s1, s2⟩ := byLinePatch_inv prox files st ans (patchOf n r) stm ansm hstep hndr
          (fun f _ fa hl => by rw [hpn]; exact hb f.path fa hl)
          (by
            intro pa fa hl
            rw [hpn]
            exact marksBoundL_mono (hb pa fa hl) (by omega))
        have hd2 : DepStrict (n + 1) stm := by
          intro j i hji
          rcases s2 j i hji with h2 | h2
          · have := hd j i h2
            omega
          · rw [hpn] at h2
            omega
        have hb2 : AnsBound (n + 1) ansm := by
          intro pa fa hl
          have := s1 pa fa hl
          rw [hpn] at this
          exact this
        have hfin := ih (n + 1) stm ansm st2 ans2 h hndtl hb2 hd2
        intro j i hji
        obtain ⟨a, b⟩ := hfin j i hji
        refine ⟨a, ?_⟩
        simp only [List.length_cons]
        omega

theorem setDepBool_edges (d : Nat → Nat → Bool) (a b j i : Nat)
    (h : setDepBool d a b j i = true) : d j i = true ∨ (j = a ∧ i = b) := by
  unfold setDepBool at h
  split at h
  · rename_i hc
    exact Or.inr hc
  · exact Or.inl h

theorem foldl_setDepBool_edges (a : Nat) (l : List Nat) :
    ∀ (d : Nat → Nat → Bool) (j i : Nat),
      (l.foldl (fun d o => setDepBool d a o) d) j i = true →
      d j i = true ∨ (j = a ∧ i ∈ l) := by
  induction l with
  | nil =>
    intro d j i h
    exact Or.inl h
  | cons o os ih =>
    intro d j i h
    rw [List.foldl_cons] at h
    rcases ih (setDepBool d a o) j i h with h2 | h2
    · rcases setDepBool_edges d a o j i h2 with h3 | h3
      · exact Or.inl h3
      · exact Or.inr ⟨h3.1, h3.2 ▸ List.mem_cons_self o os⟩
    · exact Or.inr ⟨h2.1, List.mem_cons_of_mem o h2.2⟩

theorem lookupTouches_appendTouch_eq (t : List (Str × List Nat)) (path : Str) (m : Nat) :
    lookupTouches (appendTouch t path m) path = lookupTouches t path ++ [m] := by
  induction t with
  | nil =>
    simp [appendTouch, lookupTouches]
  | cons p rest ih =>
    obtain ⟨q, qs⟩ := p
    unfold appendTouch
    by_cases hq : q = path
    · rw [if_pos hq]
      unfold lookupTouches
      rw [if_pos hq, if_pos hq]
    · rw [if_neg hq]
      unfold lookupTouches
      rw [if_neg hq, if_neg hq]
      exact ih

theorem lookupTouches_appendTouch_ne (t : List (Str × List Nat)) (path path2 : Str) (m : Nat)
    (hne : path ≠ path2) :
    lookupTouches (appendTouch t path m) path2 = lookupTouches t path2 := by
  induction t with
  | nil =>
    simp only [appendTouch, lookupTouches]
    rw [if_neg hne]
  | cons p rest ih =>
    obtain ⟨q, qs⟩ := p
    unfold appendTouch
    by_cases hq : q = path
    · rw [if_pos hq]
      unfold lookupTouches
      subst hq
      rw [if_neg hne, if_neg hne]
    · rw [if_neg hq]
      unfold lookupTouches
      by_cases hq2 : q = path2
      · rw [if_pos hq2, if_pos hq2]
      · rw [if_neg hq2, if_neg hq2]
        exact ih

/-- One revision of the file-level analyzer: with distinct paths, touch
lists of this revision's paths strictly below its number, and everything
else bounded by the next number, both outputs stay bounded by the next
number. -/
theorem byFilePatch_inv (n : Nat) (files : List PatchedFile) :
    ∀ (t : List (Str × List Nat)) (d : Nat → Nat → Bool),
      (files.map PatchedFile.path).Nodup →
      (∀ f ∈ files, ∀ q ∈ lookupTouches t f.path, q < n) →
      TouchesBound (n + 1) t →
      DepStrictB (n + 1) d →
      TouchesBound (n + 1) (byFilePatch n t d files).1 ∧
      DepStrictB (n + 1) (byFilePatch n t d files).2 := by
  induction files with
  | nil =>
    intro t d _ _ ht hd
    exact ⟨ht, hd⟩
  | cons f fs ih =>
    intro t d hnd hf ht hd
    unfold byFilePatch
    dsimp only
    have hnds := List.nodup_cons.mp hnd
    refine ih (appendTouch t f.path n) _ hnds.2 ?_ ?_ ?_
    · intro f2 hf2 q hq
      have hne : f.path ≠ f2.path := by
        intro hEq
        exact hnds.1 (hEq ▸ List.mem_map_of_mem PatchedFile.path hf2)
      rw [lookupTouches_appendTouch_ne t f.path f2.path n hne] at hq
      exact hf f2 (List.mem_cons_of_mem f hf2) q hq
    · intro pa q hq
      by_cases hpa : f.path = pa
      · subst hpa
        rw [lookupTouches_appendTouch_eq t f.path n] at hq
        rcases List.mem_append.mp hq with h2 | h2
        · have := hf f (List.mem_cons_self f fs) q h2
          omega
        · have : q = n := by simpa using h2
          omega
      · rw [lookupTouches_appendTouch_ne t f.path pa n hpa] at hq
        exact ht pa q hq
    · intro j i hji
      rcases foldl_setDepBool_edges n (lookupTouches t f.path) d j i hji with h2 | h2
      · exact hd j i h2
      · have := hf f (List.mem_cons_self f fs) i h2.2
        omega

/-- The file-level run over a revision suffix: with bounded touch lists
and strictly backward edges, every edge of the final map points strictly
backward. -/
theorem byFileRunAux_inv (revs : List RevInput) :
    ∀ (n : Nat) (t : List (Str × List Nat)) (d : Nat → Nat → Bool) (d2 : Nat → Nat → Bool),
      byFileRunAux revs n t d = Except.ok d2 →
      revs.all pathsNodup = true →
      TouchesBound n t →
      DepStrictB n d →
      ∀ j i, d2 j i = true → i < j := by
  induction revs with
  | nil =>
    intro n t d d2 h _ _ hd j i hji
    cases h
    exact (hd j i hji).1
  | cons r rest ih =>
    intro n t d d2 h hnd ht hd
    rw [List.all_cons, Bool.and_eq_true] at hnd
    obtain ⟨hnd1, hndtl⟩ := hnd
    unfold byFileRunAux at h
    split at h
    · cases h
    · rename_i files hparse
      dsimp only at h
      have hndr : (files.map PatchedFile.path).Nodup := by
        unfold pathsNodup at hnd1
        rw [hparse] at hnd1
        exact of_decide_eq_true hnd1
      obtain ⟨t1, t2⟩ := byFilePatch_inv n files t d hndr
        (fun f _ q hq => ht f.path q hq)
        (fun pa q hq => by have := ht pa q hq; omega)
        (fun j i hji => by have := hd j i hji; omega)
      exact ih (n + 1) _ _ d2 h hndtl t1 t2

/-- C9 counterexample: a single revision whose diff names the same path
twice produces a self-edge in both analyzers. `revD1` touches `X` in two
file sections, so the file-level analyzer records revision 0 depending on
itself; `revD2` adds a line to `Y` in its first section and deletes that
same line in its second, so the line-level analyzer emits a hard edge from
revision 0 to itself. -/
theorem claim_C9_counterexample :
    fileDep [revD1] 0 0 = some true ∧
    runDep 0 [revD2] 0 0 = some (some DepKind.hard) :=
  ⟨rfl, rfl⟩

/-- C9 (amended): on any input sequence in which each revision's parsed
diff names each logical path at most once (as git-produced diffs do),
every edge `(j, i)` of the dependency map produced by either analyzer
satisfies `i < j`: no self-edges and no forward edges. Without the
at-most-once condition both analyzers can emit self-edges (see the
counterexample). -/
theorem claim_C9 :
    (∀ (prox : Int) (revs : List RevInput) (st2 : AnalysisSt)
       (ans2 : List (Str × FileAn)),
      revs.all pathsNodup = true →
      byLineRun prox revs = Except.ok (st2, ans2) →
      ∀ j i, st2.depends j i ≠ none → i < j) ∧
    (∀ (revs : List RevInput) (d2 : Nat → Nat → Bool),
      revs.all pathsNodup = true →
      byFileRun revs = Except.ok d2 →
      ∀ j i, d2 j i = true → i < j) := by
  constructor
  · intro prox revs st2 ans2 hnd h j i hji
    have hb0 : AnsBound 0 [] := by
      intro pa fa hl
      simp [lookupAnalyzer] at hl
    have hd0 : DepStrict 0 emptyAnalysis := by
      intro a b hab
      exact absurd rfl hab
    exact (byLineRunAux_inv prox revs 0 emptyAnalysis [] st2 ans2 h hnd hb0 hd0 j i hji).1
  · intro revs d2 hnd h j i hji
    have ht0 : TouchesBound 0 [] := by
      intro pa q hq
      simp [lookupTouches] at hq
    have hd0 : DepStrictB 0 (fun _ _ => false) := by
      intro a b hab
      cases hab
    exact byFileRunAux_inv revs 0 [] (fun _ _ => false) d2 h hnd ht0 hd0 j i hji

/-- Witness for C9: both analyzers applied at concrete runs. The pair
`revX1`, `revX2` (each naming each path once) yields the line-level
proximity edge `1 → 0`; the pair `revQ1`, `revQ2` yields the file-level
edge `1 → 0`; the amended claim turns each edge into `0 < 1`. -/
theorem claim_C9_witness :
    ([revX1, revX2].all pathsNodup = true ∧
     [revQ1, revQ2].all pathsNodup = true) ∧
    ((0 : Nat) < 1 ∧ (0 : Nat) < 1) := by
  refine ⟨⟨by decide, by decide⟩, ?_, ?_⟩
  · rcases hrun : byLineRun 2 [revX1, revX2] with e | p
    · exfalso
      have hrd : runDep 2 [revX1, revX2] 1 0 = none := by
        unfold runDep
        rw [hrun]
      have hrd2 : runDep 2 [revX1, revX2] 1 0 = some (some DepKind.proximity) := rfl
      rw [hrd] at hrd2
      cases hrd2
    · obtain ⟨stv, ansv⟩ := p
      have hdep : stv.depends 1 0 ≠ none := by
        have hrd2 : runDep 2 [revX1, revX2] 1 0 = some (some DepKind.proximity) := rfl
        unfold runDep at hrd2
        rw [hrun] at hrd2
        dsimp only at hrd2
        intro hc
        rw [hc] at hrd2
        cases hrd2
      exact claim_C9.1 2 [revX1, revX2] stv ansv (by decide) hrun 1 0 hdep
  · rcases hrun : byFileRun [revQ1, revQ2] with e | d
    · exfalso
      have hfd : fileDep [revQ1, revQ2] 1 0 = none := by
        unfold fileDep
        rw [hrun]
      have hfd2 : fileDep [revQ1, revQ2] 1 0 = some true := rfl
      rw [hfd] at hfd2
      cases hfd2
    · have hd10 : d 1 0 = true := by
        have hfd2 : fileDep [revQ1, revQ2] 1 0 = some true := rfl
        unfold fileDep at hfd2
        rw [hrun] at hfd2
        exact Option.some.inj hfd2
      exact claim_C9.2 [revQ1, revQ2] d (by decide) hrun 1 0 hd10

theorem claimProx_lineno (s : LineState) (p : Nat) : (s.claimProx p).lineno = s.lineno := by
  unfold LineState.claimProx
  split
  · rfl
  · rfl

theorem mem_zmodify_at {l : List LineState} {i : Int} {f : LineState → LineState}
    {x : LineState} (h : x ∈ zmodify l i f) :
    x ∈ l ∨ ∃ y, l.get? i.toNat = some y ∧ x = f y := by
  obtain ⟨n, hn⟩ := List.mem_iff_get.1 h
  have hk : (zmodify l i f).get? n.1 = some x := by
    rw [List.get?_eq_get n.2, hn]
  rw [zmodify_getq] at hk
  cases hy : l.get? n.1 with
  | none =>
    rw [hy] at hk
    cases hk
  | some y =>
    rw [hy] at hk
    have hk2 : (if i.toNat = n.1 then f y else y) = x := Option.some.inj hk
    by_cases hin : i.toNat = n.1
    · right
      refine ⟨y, by rw [hin]; exact hy, ?_⟩
      rw [if_pos hin] at hk2
      exact hk2.symm
    · left
      rw [if_neg hin] at hk2
      rw [← hk2]
      exact List.get?_mem hy

/-- One marking step of the forward claim loop, combined with the
induction hypothesis for the remaining fuel. -/
theorem claimAfterAux_marks_tail (pnum : Nat) (fuel : Nat)
    (ih : ∀ (fa : FileAn) (i lineno : Int) (fa2 : FileAn),
      claimAfterAux pnum fuel fa i lineno = Except.ok fa2 →
      ∀ ls2 ∈ fa2.line_list, pnum ∈ ls2.proximity →
        ls2.lineno < lineno + fuel ∨
        ∃ ls ∈ fa.line_list, ls.lineno = ls2.lineno ∧ pnum ∈ ls.proximity)
    (fa fab : FileAn) (i lineno : Int) (fa2 : FileAn)
    (h : claimAfterAux pnum fuel
        { fab with line_list := zmodify fab.line_list i (fun t => t.claimProx pnum) }
        (i + 1) (lineno + 1) = Except.ok fa2)
    (hmembers : ∀ x ∈ fab.line_list, x.proximity = [] ∨ x ∈ fa.line_list)
    (hidx : ∀ y, fab.line_list.get? i.toNat = some y → y.lineno ≤ lineno)
    (ls2 : LineState) (hls2 : ls2 ∈ fa2.line_list) (hp : pnum ∈ ls2.proximity) :
    ls2.lineno ≤ lineno + fuel ∨
    ∃ ls ∈ fa.line_list, ls.lineno = ls2.lineno ∧ pnum ∈ ls.proximity := by
  have hrec := ih _ (i + 1) (lineno + 1) fa2 h ls2 hls2 hp
  rcases hrec with hb | ⟨ls, hlsmem, hlin, hlp⟩
  · left
    omega
  · have hlsmem2 : ls ∈ zmodify fab.line_list i (fun t => t.claimProx pnum) := hlsmem
    rcases mem_zmodify_at hlsmem2 with hmem | ⟨y, hy, rfl⟩
    · rcases hmembers ls hmem with hpr0 | hin
      · exfalso
        rw [hpr0] at hlp
        simp at hlp
      · exact Or.inr ⟨ls, hin, hlin, hlp⟩
    · left
      have hyl := hidx y hy
      rw [← hlin, claimProx_lineno]
      omega

/-- One marking step of the backward claim loop (the part after a possible
insert), combined with the induction hypothesis for the remaining fuel. -/
theorem claimBeforeAux_marks_tail (pnum : Nat) (fuel : Nat)
    (ih : ∀ (fa : FileAn) (i lineno : Int) (fa2 : FileAn),
      claimBeforeAux pnum fuel fa i lineno = Except.ok fa2 →
      fa.offset = 0 →
      ∀ ls2 ∈ fa2.line_list, pnum ∈ ls2.proximity →
        (lineno - fuel < ls2.lineno ∧ 0 < ls2.lineno) ∨
        ∃ ls ∈ fa.line_list, ls.lineno = ls2.lineno ∧ pnum ∈ ls.proximity)
    (fa fab : FileAn) (i2 lineno : Int) (fa2 : FileAn)
    (h : (match zget fab.line_list i2 with
          | none => Except.error Err.crash
          | some s =>
            if pnum ∈ s.proximity ∨ s.changed_by = some pnum then Except.ok fab
            else claimBeforeAux pnum fuel
              { fab with line_list := zmodify fab.line_list i2 (fun t => t.claimProx pnum) }
              (i2 - 1) (lineno - 1)) = Except.ok fa2)
    (hmembers : ∀ x ∈ fab.line_list, x.proximity = [] ∨ x ∈ fa.line_list)
    (hsl : ∀ s, zget fab.line_list i2 = some s → lineno ≤ s.lineno)
    (hoff2 : fab.offset = 0)
    (hln : 0 < lineno)
    (ls2 : LineState) (hls2 : ls2 ∈ fa2.line_list) (hp : pnum ∈ ls2.proximity) :
    (lineno - 1 - fuel < ls2.lineno ∧ 0 < ls2.lineno) ∨
    ∃ ls ∈ fa.line_list, ls.lineno = ls2.lineno ∧ pnum ∈ ls.proximity := by
  split at h
  · cases h
  · rename_i s hs
    split at h
    · cases h
      rcases hmembers ls2 hls2 with hpr0 | hin
      · exfalso
        rw [hpr0] at hp
        simp at hp
      · exact Or.inr ⟨ls2, hin, rfl, hp⟩
    · have hrec := ih _ (i2 - 1) (lineno - 1) fa2 h hoff2 ls2 hls2 hp
      rcases hrec with ⟨hb1, hb2⟩ | ⟨ls, hlsmem, hlin, hlp⟩
      · exact Or.inl ⟨by omega, hb2⟩
      · have hlsmem2 : ls ∈ zmodify fab.line_list i2 (fun t => t.claimProx pnum) := hlsmem
        rcases mem_zmodify_at hlsmem2 with hmem | ⟨y, hy, rfl⟩
        · rcases hmembers ls hmem with hpr0 | hin
          · exfalso
            rw [hpr0] at hlp
            simp at hlp
          · exact Or.inr ⟨ls, hin, hlin, hlp⟩
        · have h0 : 0 ≤ i2 := zget_nonneg hs
          have hg : fab.line_list.get? i2.toNat = some s := by
            unfold zget at hs
            rw [if_pos h0] at hs
            exact hs
          rw [hg] at hy
          cases hy
          have hsl2 := hsl s hs
          left
          constructor
          · rw [← hlin, claimProx_lineno]
            omega
          · rw [← hlin, claimProx_lineno]
            omega

/-- The forward claim loop entered at `lineno` with `fuel` iterations
claims only states whose line number stays below `lineno + fuel`; every
other state carrying the patch already carried it before. -/
theorem claimAfterAux_marks (pnum : Nat) (fuel : Nat) :
    ∀ (fa : FileAn) (i lineno : Int) (fa2 : FileAn),
      claimAfterAux pnum fuel fa i lineno = Except.ok fa2 →
      ∀ ls2 ∈ fa2.line_list, pnum ∈ ls2.proximity →
        ls2.lineno < lineno + fuel ∨
        ∃ ls ∈ fa.line_list, ls.lineno = ls2.lineno ∧ pnum ∈ ls.proximity := by
  induction fuel with
  | zero =>
    intro fa i lineno fa2 h ls2 hls2 hp
    cases h
    exact Or.inr ⟨ls2, hls2, rfl, hp⟩
  | succ fuel ih =>
    intro fa i lineno fa2 h ls2 hls2 hp
    unfold claimAfterAux at h
    dsimp only at h
    split at h
    · cases h
    · rename_i fab heq
      have hconv :
          ls2.lineno ≤ lineno + fuel ∨
          (∃ ls ∈ fa.line_list, ls.lineno = ls2.lineno ∧ pnum ∈ ls.proximity) →
          ls2.lineno < lineno + (fuel + 1 : Nat) ∨
          ∃ ls ∈ fa.line_list, ls.lineno = ls2.lineno ∧ pnum ∈ ls.proximity := by
        intro hc
        rcases hc with hb | he
        · left
          push_cast
          omega
        · exact Or.inr he
      by_cases hlen : (fa.line_list.length : Int) ≤ i
      · rw [if_pos hlen] at heq
        split at heq
        · cases heq
        · cases heq
          refine hconv (claimAfterAux_marks_tail pnum fuel ih fa _ i lineno fa2 h ?_ ?_
            ls2 hls2 hp)
          · intro x hx
            rcases mem_zinsert hx with rfl | hin
            · exact Or.inl rfl
            · exact Or.inr hin
          · intro y hy
            have hg : (zinsert fa.line_list i
                (LineState.mk lineno none none [])).get? i.toNat = some y := hy
            rw [zinsert_getq] at hg
            have hmin : min i.toNat fa.line_list.length = fa.line_list.length := by
              omega
            rw [hmin] at hg
            split at hg
            · rename_i hlt
              exact absurd hlt (by omega)
            · split at hg
              · cases hg
                exact le_refl _
              · rw [List.get?_eq_none.mpr (by omega)] at hg
                cases hg
      · rw [if_neg hlen] at heq
        cases hzg : zget fa.line_list i with
        | none =>
          rw [hzg] at heq
          cases heq
        | some s =>
          rw [hzg] at heq
          try dsimp only at heq
          have h0 : 0 ≤ i := zget_nonneg hzg
          have hgs : fa.line_list.get? i.toNat = some s := by
            unfold zget at hzg
            rw [if_pos h0] at hzg
            exact hzg
          by_cases hsl : lineno < s.lineno
          · rw [if_pos hsl] at heq
            split at heq
            · cases heq
            · cases heq
              refine hconv (claimAfterAux_marks_tail pnum fuel ih fa _ i lineno fa2 h ?_ ?_
                ls2 hls2 hp)
              · intro x hx
                rcases mem_zinsert hx with rfl | hin
                · exact Or.inl rfl
                · exact Or.inr hin
              · intro y hy
                have hg : (zinsert fa.line_list i
                    (LineState.mk lineno none none [])).get? i.toNat = some y := hy
                rw [zinsert_getq] at hg
                obtain ⟨hlt, -⟩ := List.get?_eq_some.mp hgs
                have hmin : min i.toNat fa.line_list.length = i.toNat := by
                  omega
                rw [hmin] at hg
                rw [if_neg (by omega), if_pos rfl] at hg
                cases hg
                exact le_refl _
          · rw [if_neg hsl] at heq
            cases heq
            refine hconv (claimAfterAux_marks_tail pnum fuel ih fa _ i lineno fa2 h ?_ ?_
              ls2 hls2 hp)
            · intro x hx
              exact Or.inr hx
            · intro y hy
              rw [hgs] at hy
              cases hy
              omega

/-- The backward claim loop entered at `lineno` with `fuel` iterations and
zero pending offset claims only states whose line number stays above
`lineno - fuel` and positive; every other state carrying the patch already
carried it before. -/
theorem claimBeforeAux_marks (pnum : Nat) (fuel : Nat) :
    ∀ (fa : FileAn) (i lineno : Int) (fa2 : FileAn),
      claimBeforeAux pnum fuel fa i lineno = Except.ok fa2 →
      fa.offset = 0 →
      ∀ ls2 ∈ fa2.line_list, pnum ∈ ls2.proximity →
        (lineno - fuel < ls2.lineno ∧ 0 < ls2.lineno) ∨
        ∃ ls ∈ fa.line_list, ls.lineno = ls2.lineno ∧ pnum ∈ ls.proximity := by
  induction fuel with
  | zero =>
    intro fa i lineno fa2 h hoff ls2 hls2 hp
    cases h
    exact Or.inr ⟨ls2, hls2, rfl, hp⟩
  | succ fuel ih =>
    intro fa i lineno fa2 h hoff ls2 hls2 hp
    unfold claimBeforeAux at h
    by_cases hln : 0 < lineno
    · rw [if_pos hln] at h
      dsimp only at h
      have hconv :
          ((lineno - 1 - fuel < ls2.lineno ∧ 0 < ls2.lineno) ∨
            ∃ ls ∈ fa.line_list, ls.lineno = ls2.lineno ∧ pnum ∈ ls.proximity) →
          (lineno - (fuel + 1 : Nat) < ls2.lineno ∧ 0 < ls2.lineno) ∨
          ∃ ls ∈ fa.line_list, ls.lineno = ls2.lineno ∧ pnum ∈ ls.proximity := by
        intro hc
        rcases hc with ⟨hb1, hb2⟩ | he
        · left
          refine ⟨?_, hb2⟩
          push_cast
          push_cast at hb1
          omega
        · exact Or.inr he
      split at h
      · cases h
      · rename_i fab i2 heq
        by_cases hi : i < 0
        · rw [if_pos hi] at heq
          try dsimp only at heq
          split at heq
          · cases heq
          · cases heq
            refine hconv (claimBeforeAux_marks_tail pnum fuel ih fa _ (i + 1) lineno fa2 h
              ?_ ?_ hoff hln ls2 hls2 hp)
            · intro x hx
              rcases mem_zinsert hx with rfl | hin
              · exact Or.inl rfl
              · exact Or.inr hin
            · intro s hsz
              have h0 : 0 ≤ i + 1 := zget_nonneg hsz
              have hg : (zinsert fa.line_list (i + 1)
                  (LineState.mk lineno none none [])).get? (i + 1).toNat = some s := by
                unfold zget at hsz
                rw [if_pos h0] at hsz
                exact hsz
              rw [zinsert_getq] at hg
              have hi10 : (i + 1).toNat = 0 := by omega
              rw [hi10] at hg
              have hmin : min 0 fa.line_list.length = 0 := by omega
              rw [hmin] at hg
              rw [if_neg (by omega), if_pos rfl] at hg
              cases hg
              exact le_refl _
        · rw [if_neg hi] at heq
          cases hzg : zget fa.line_list i with
          | none =>
            rw [hzg] at heq
            cases heq
          | some s0 =>
            rw [hzg] at heq
            try dsimp only at heq
            have h0 : 0 ≤ i := zget_nonneg hzg
            have hgs : fa.line_list.get? i.toNat = some s0 := by
              unfold zget at hzg
              rw [if_pos h0] at hzg
              exact hzg
            split at heq
            · rename_i hcond
              try dsimp only at heq
              split at heq
              · cases heq
              · cases heq
                refine hconv (claimBeforeAux_marks_tail pnum fuel ih fa _ (i + 1) lineno fa2 h
                  ?_ ?_ hoff hln ls2 hls2 hp)
                · intro x hx
                  rcases mem_zinsert hx with rfl | hin
                  · exact Or.inl rfl
                  · exact Or.inr hin
                · intro s hsz
                  have h01 : 0 ≤ i + 1 := by omega
                  have hg : (zinsert fa.line_list (i + 1)
                      (LineState.mk lineno none none [])).get? (i + 1).toNat = some s := by
                    unfold zget at hsz
                    rw [if_pos h01] at hsz
                    exact hsz
                  rw [zinsert_getq] at hg
                  obtain ⟨hlt, -⟩ := List.get?_eq_some.mp hgs
                  have hmin : min (i + 1).toNat fa.line_list.length = (i + 1).toNat := by
                    omega
                  rw [hmin] at hg
                  rw [if_neg (by omega), if_pos rfl] at hg
                  cases hg
                  exact le_refl _
            · rename_i hcond
              cases heq
              refine hconv (claimBeforeAux_marks_tail pnum fuel ih fa _ i lineno fa2 h
                ?_ ?_ hoff hln ls2 hls2 hp)
              · intro x hx
                exact Or.inr hx
              · intro s hsz
                rw [hzg] at hsz
                cases hsz
                rw [hoff] at hcond
                omega
    · rw [if_neg hln] at h
      cases h
      exact Or.inr ⟨ls2, hls2, rfl, hp⟩

/-- C1 counterexample: `revY1` records context text `t12` at source line
12 of `Y`; `revY2` (revision 1) then deletes source line 10 with proximity
window 2. The claim requires every existing state within 2 lines after
L = 10 — in particular the state at source position 12 — to be marked with
revision 1. The final state list shows the claim loops created and marked
states at source lines 8 and 9 (backward window) and 10 and 11 (forward
window), but the pre-existing state holding `t12` (at position 12 during
the replay, renumbered to 11 by the offset pass afterwards) ends with an
empty proximity set: the forward loop reaches only `N - 1` lines past the
change. -/
theorem claim_C1_counterexample :
    runFileStates 2 [revY1, revY2] (str "Y") = some
      [⟨8, none, none, [1]⟩, ⟨9, none, none, [1]⟩, ⟨9, none, none, [1]⟩,
       ⟨10, none, none, [1]⟩, ⟨11, some (str "t12"), none, []⟩] := rfl

/-- C1 (amended): the proximity-claim step of a non-context change at
source position `L` with window `N` is bounded and short-stopping rather
than symmetric: (1) the forward loop claims only states with line number
strictly below `L + N` (one line short of the claimed `L + N`), any other
state carrying the revision carried it already; (2) the backward loop
(with no pending offset) claims only states with line number strictly
above `L - 1 - N` and positive; (3) the backward loop stops immediately —
claiming nothing — as soon as the state just below the change already
carries the revision, even if states farther back inside the window do
not. -/
theorem claim_C1 :
    (∀ (fa : FileAn) (pnum : Nat) (src : Int) (fa2 : FileAn),
      fa.claimAfter pnum src = Except.ok fa2 →
      src ≠ 0 →
      0 ≤ fa.proximity →
      ∀ ls2 ∈ fa2.line_list, pnum ∈ ls2.proximity →
        ls2.lineno < src + fa.proximity ∨
        ∃ ls ∈ fa.line_list, ls.lineno = ls2.lineno ∧ pnum ∈ ls.proximity) ∧
    (∀ (fa : FileAn) (pnum : Nat) (src : Int) (fa2 : FileAn),
      fa.claimBefore pnum src = Except.ok fa2 →
      fa.offset = 0 →
      0 ≤ fa.proximity →
      ∀ ls2 ∈ fa2.line_list, pnum ∈ ls2.proximity →
        (src - 1 - fa.proximity < ls2.lineno ∧ 0 < ls2.lineno) ∨
        ∃ ls ∈ fa.line_list, ls.lineno = ls2.lineno ∧ pnum ∈ ls.proximity) ∧
    (∀ (fa : FileAn) (pnum : Nat) (src : Int) (s : LineState),
      zget fa.line_list (fa.processed_idx - 1) = some s →
      fa.to_update_idx ≤ fa.processed_idx - 1 →
      src - 1 ≤ s.lineno →
      pnum ∈ s.proximity →
      fa.claimBefore pnum src = Except.ok fa) := by
  refine ⟨?_, ?_, ?_⟩
  · intro fa pnum src fa2 h hsrc hprox ls2 hls2 hp
    unfold FileAn.claimAfter at h
    dsimp only at h
    rw [if_neg hsrc] at h
    rw [show fa.proximity - (src - src) = fa.proximity from by ring] at h
    have hres := claimAfterAux_marks pnum fa.proximity.toNat fa fa.to_update_idx src fa2 h
      ls2 hls2 hp
    rcases hres with hb | he
    · left
      omega
    · exact Or.inr he
  · intro fa pnum src fa2 h hoff hprox ls2 hls2 hp
    unfold FileAn.claimBefore at h
    have hres := claimBeforeAux_marks pnum fa.proximity.toNat fa (fa.processed_idx - 1)
      (src - 1) fa2 h hoff ls2 hls2 hp
    rcases hres with ⟨hb1, hb2⟩ | he
    · exact Or.inl ⟨by omega, hb2⟩
    · exact Or.inr he
  · intro fa pnum src s hzg hcur hge hps
    unfold FileAn.claimBefore
    cases hfuel : fa.proximity.toNat with
    | zero => rfl
    | succ fuel =>
      unfold claimBeforeAux
      by_cases hln : 0 < src - 1
      · rw [if_pos hln]
        dsimp only
        have h0 : 0 ≤ fa.processed_idx - 1 := zget_nonneg hzg
        rw [if_neg (show ¬fa.processed_idx - 1 < 0 by omega), hzg]
        dsimp only
        rw [if_neg (show ¬((fa.to_update_idx ≤ fa.processed_idx - 1 ∧ s.lineno < src - 1) ∨
            (fa.processed_idx - 1 < fa.to_update_idx ∧
              s.lineno - fa.offset < src - 1)) by
          intro hc
          rcases hc with ⟨h1, h2⟩ | ⟨h1, h2⟩
          · omega
          · omega)]
        dsimp only
        rw [hzg]
        dsimp only
        rw [if_pos (Or.inl hps)]
      · rw [if_neg hln]

/-- Witness for C1: the three parts applied at concrete analyzers. The
forward loop on the empty analyzer `faW` (window 2, change at line 7)
creates and claims lines 7 and 8, and the claimed `lsW7` satisfies the
forward bound; the backward loop on `faV` (state at line 6, change at
line 7) claims line 6 and creates and claims line 5, and the claimed
`lsV5` satisfies the backward bound; the backward loop on `faU` (whose
state at line 8 already carries revision 3, change at line 9) stops at
once and returns `faU` unchanged. -/
theorem claim_C1_witness :
    (FileAn.claimAfter faW 3 7 = Except.ok faW2 ∧ (7 : Int) ≠ 0 ∧
      (0 : Int) ≤ faW.proximity ∧ lsW7 ∈ faW2.line_list ∧ 3 ∈ lsW7.proximity ∧
      FileAn.claimBefore faV 3 7 = Except.ok faV2 ∧ faV.offset = 0 ∧
      (0 : Int) ≤ faV.proximity ∧ lsV5 ∈ faV2.line_list ∧ 3 ∈ lsV5.proximity ∧
      zget faU.line_list (faU.processed_idx - 1) = some sU8 ∧
      faU.to_update_idx ≤ faU.processed_idx - 1 ∧ (9 : Int) - 1 ≤ sU8.lineno ∧
      3 ∈ sU8.proximity) ∧
    ((lsW7.lineno < 7 + faW.proximity ∨
        ∃ ls ∈ faW.line_list, ls.lineno = lsW7.lineno ∧ 3 ∈ ls.proximity) ∧
     ((7 - 1 - faV.proximity < lsV5.lineno ∧ 0 < lsV5.lineno) ∨
        ∃ ls ∈ faV.line_list, ls.lineno = lsV5.lineno ∧ 3 ∈ ls.proximity) ∧
     FileAn.claimBefore faU 3 9 = Except.ok faU) := by
  refine ⟨⟨rfl, by decide, by decide, by decide, by decide, rfl, rfl, by decide,
    by decide, by decide, rfl, by decide, by decide, by decide⟩, ?_, ?_, ?_⟩
  · exact claim_C1.1 faW 3 7 faW2 rfl (by decide) (by decide) lsW7 (by decide) (by decide)
  · exact claim_C1.2.1 faV 3 7 faV2 rfl rfl (by decide) lsV5 (by decide) (by decide)
  · exact claim_C1.2.2 faU 3 9 sU8 rfl (by decide) (by decide) (by decide)

end Patchdeps
